import Mathlib

/-!
Verification of the data-reconciliation core of the `eua2-scraper` repository.

The Python source (`scraper.py`, `visualize.py`, `scrape_eua2.py`) is shallowly
embedded below.  Dates travel through the program as text; here a textual date
token is represented by the inductive `DateTok`, whose constructors stand for
the textual shapes the program recognises, together with `render`, which maps a
token to the sequence of code points of its text (Python compares and sorts
these strings by code point, which is exactly lexicographic order on the
rendered lists).  Prices are rationals: every price the program reasons about
is a finite decimal, and all comparisons in the source (`> 0`, `> 1000000`)
are exact on decimals.
-/

namespace EUA2

/-- A calendar date (year, month, day) — the result of Python's
`datetime.strptime`/`datetime(...)` truncated to the day. -/
structure CalDate where
  y : Nat
  m : Nat
  d : Nat
deriving DecidableEq, Repr

/-- Strict chronological order on calendar dates. -/
def dateLtB (a b : CalDate) : Bool :=
  a.y < b.y || (a.y == b.y && (a.m < b.m || (a.m == b.m && a.d < b.d)))

/-- Gregorian leap year, as validated by Python's `datetime`. -/
def isLeap (y : Nat) : Bool :=
  (y % 4 == 0 && y % 100 != 0) || y % 400 == 0

/-- Days in a month, as validated by Python's `datetime`. -/
def daysInMonth (y m : Nat) : Nat :=
  if m == 2 then (if isLeap y then 29 else 28)
  else if m == 4 || m == 6 || m == 9 || m == 11 then 30
  else 31

/-- The (year, month, day) triples Python's `datetime` constructor accepts
(year 1–9999, valid month and day-of-month). -/
def validDateB (y m d : Nat) : Bool :=
  1 ≤ y && y ≤ 9999 && 1 ≤ m && m ≤ 12 && 1 ≤ d && d ≤ daysInMonth y m

/-! ## Text as code-point sequences -/

/-- A piece of text, as its list of Unicode code points (Python `str`
comparison is code-point lexicographic, which is list lexicographic here). -/
abbrev Str := List Nat

/-- Code points of a Lean string literal. -/
def ofString (s : String) : Str := s.toList.map Char.toNat

/-- Code point of a decimal digit. -/
def digit (n : Nat) : Nat := 48 + n

/-- Two-digit zero-padded decimal text (faithful for `n < 100`, the range of
month and day fields). -/
def pad2 (n : Nat) : Str := [digit (n / 10 % 10), digit (n % 10)]

/-- Four-digit zero-padded decimal text (faithful for `n ≤ 9999`, the range of
Python `datetime` years). -/
def pad4 (n : Nat) : Str :=
  [digit (n / 1000 % 10), digit (n / 100 % 10), digit (n / 10 % 10), digit (n % 10)]

/-- Python string `<`: code-point lexicographic, a strict prefix is smaller. -/
def strLtB : Str → Str → Bool
  | [], [] => false
  | [], _ :: _ => true
  | _ :: _, [] => false
  | a :: as, b :: bs => if a < b then true else if b < a then false else strLtB as bs

/-- Python string `<=` (total order companion of `strLtB`). -/
def strLeB (a b : Str) : Bool := !(strLtB b a)

/-! ## Date tokens

`DateTok` enumerates the textual date shapes handled by the source's ordered
`strptime` format lists.  `render` gives the exact text of a token.  A token
whose text fits none of these shapes is never produced by the program's own
writer, and no claim requires one. -/

inductive DateTok where
  /-- `"YYYY-MM-DD"` (zero-padded). -/
  | iso (y m d : Nat)
  /-- `"Www Mmm DD 00:00:00 YYYY"`, e.g. `"Mon Jun 30 00:00:00 2025"`;
  `w` is the weekday name index (Python parses but never cross-validates it). -/
  | verbose (w m d y : Nat)
  /-- `"YYYY-MM-DD 00:00:00"`. -/
  | isodt (y m d : Nat)
  /-- `"AA/BB/YYYY"` — ambiguous between `%m/%d/%Y` and `%d/%m/%Y`. -/
  | slash (a b y : Nat)
deriving DecidableEq, Repr

/-- Abbreviated month name used by `%b`. -/
def monthName (m : Nat) : Str :=
  match m with
  | 1 => ofString "Jan" | 2 => ofString "Feb" | 3 => ofString "Mar"
  | 4 => ofString "Apr" | 5 => ofString "May" | 6 => ofString "Jun"
  | 7 => ofString "Jul" | 8 => ofString "Aug" | 9 => ofString "Sep"
  | 10 => ofString "Oct" | 11 => ofString "Nov" | 12 => ofString "Dec"
  | _ => ofString "???"

/-- Abbreviated weekday name used by `%a`. -/
def weekdayName (w : Nat) : Str :=
  match w % 7 with
  | 0 => ofString "Mon" | 1 => ofString "Tue" | 2 => ofString "Wed"
  | 3 => ofString "Thu" | 4 => ofString "Fri" | 5 => ofString "Sat"
  | _ => ofString "Sun"

/-- The text of a date token. -/
def render : DateTok → Str
  | .iso y m d => pad4 y ++ ofString "-" ++ pad2 m ++ ofString "-" ++ pad2 d
  | .verbose w m d y =>
      weekdayName w ++ ofString " " ++ monthName m ++ ofString " " ++ pad2 d ++
        ofString " 00:00:00 " ++ pad4 y
  | .isodt y m d =>
      pad4 y ++ ofString "-" ++ pad2 m ++ ofString "-" ++ pad2 d ++ ofString " 00:00:00"
  | .slash a b y => pad2 a ++ ofString "/" ++ pad2 b ++ ofString "/" ++ pad4 y

/-! ## `strptime` over the recognised formats -/

/-- The five `strptime` formats appearing in the source's format lists. -/
inductive Fmt where
  | fIso      -- '%Y-%m-%d'
  | fVerbose  -- '%a %b %d %H:%M:%S %Y'
  | fIsoDt    -- '%Y-%m-%d %H:%M:%S'
  | fMdy      -- '%m/%d/%Y'
  | fDmy      -- '%d/%m/%Y'
deriving DecidableEq, Repr

/-- `datetime.strptime(text, fmt)`: succeeds exactly when the token's textual
shape matches the format and the calendar fields are valid. -/
def tryFmt : Fmt → DateTok → Option CalDate
  | .fIso, .iso y m d => if validDateB y m d then some ⟨y, m, d⟩ else none
  | .fVerbose, .verbose _ m d y => if validDateB y m d then some ⟨y, m, d⟩ else none
  | .fIsoDt, .isodt y m d => if validDateB y m d then some ⟨y, m, d⟩ else none
  | .fMdy, .slash a b y => if validDateB y a b then some ⟨y, a, b⟩ else none
  | .fDmy, .slash a b y => if validDateB y b a then some ⟨y, b, a⟩ else none
  | _, _ => none

/-- `for fmt in fmts: try strptime(...); break` — first matching format wins. -/
def tryFmts (fs : List Fmt) (t : DateTok) : Option CalDate :=
  match fs with
  | [] => none
  | f :: rest =>
      match tryFmt f t with
      | some c => some c
      | none => tryFmts rest t

/-- `re.search(r'(\d{4})-(\d{2})-(\d{2})', text)` followed by the
`datetime(y, m, d)` constructor (which raises on invalid fields): the only
recognised token shapes containing such a substring are `iso` and `isodt`. -/
def regexFindIso : DateTok → Option CalDate
  | .iso y m d => if validDateB y m d then some ⟨y, m, d⟩ else none
  | .isodt y m d => if validDateB y m d then some ⟨y, m, d⟩ else none
  | _ => none

/-- Ordered format list of `scraper.py` (`_parse_data_item` and
`save_to_csv`). -/
def scraperFmts : List Fmt := [.fIso, .fVerbose, .fIsoDt, .fMdy, .fDmy]

/-- Ordered format list of `visualize.py` (`_parse_date_price`). -/
def visFmts : List Fmt := [.fIso, .fMdy, .fDmy, .fVerbose, .fIsoDt]

/-- Date-string normalisation of `scraper.py` (`_parse_data_item` lines
479–507 and the identical block in `save_to_csv` lines 707–732): the ordered
format list, then the regex fallback. -/
def parse_date_str (t : DateTok) : Option CalDate :=
  match tryFmts scraperFmts t with
  | some c => some c
  | none => regexFindIso t

/-- `re.match(r'^\d{4}-\d{2}-\d{2}$', text)`: a purely textual test — it does
not validate the calendar fields. -/
def isoShapedB : DateTok → Bool
  | .iso y m d => y ≤ 9999 && m ≤ 99 && d ≤ 99
  | _ => false

/-- Date normalisation of `load_existing_csv`'s normal-row branch (lines
591–605): keep ISO-shaped text as is; otherwise try the verbose format, then
`['%Y-%m-%d', '%m/%d/%Y', '%d/%m/%Y']`; if nothing matches the raw text is
kept unchanged. -/
def load_normalize_date (t : DateTok) : DateTok :=
  if isoShapedB t then t
  else
    match tryFmt .fVerbose t with
    | some c => .iso c.y c.m c.d
    | none =>
        match tryFmts [.fIso, .fMdy, .fDmy] t with
        | some c => .iso c.y c.m c.d
        | none => t

/-! ## Epoch timestamps

`datetime.fromtimestamp` is modelled at UTC: the calendar date of timestamp
`t` (seconds) is `civilFromDays ⌊t / 86400⌋`.  The guard reflects
`datetime`'s year range 1–9999, outside which `fromtimestamp` raises (the
exception is swallowed by `_parse_data_item`'s blanket handler, rejecting the
item). -/

/-- Civil (proleptic Gregorian) date from days since 1970-01-01
(Howard Hinnant's `civil_from_days`, shifted to ℕ; callers guard the range). -/
def civilFromDays (z : Int) : CalDate :=
  let zn : Nat := (z + 719468).toNat
  let era := zn / 146097
  let doe := zn % 146097
  let yoe := (doe - doe / 1460 + doe / 36524 - doe / 146096) / 365
  let y := yoe + era * 400
  let doy := doe - (365 * yoe + yoe / 4 - yoe / 100)
  let mp := (5 * doy + 2) / 153
  let d := doy - (153 * mp + 2) / 5 + 1
  let m := if mp < 10 then mp + 3 else mp - 9
  ⟨if m ≤ 2 then y + 1 else y, m, d⟩

/-- `datetime.fromtimestamp(t).date()` (UTC model, with `datetime`'s year
1–9999 range guard). -/
def pyFromtimestampDate (t : ℚ) : Option CalDate :=
  let dy : Int := ⌊t / 86400⌋
  if -719162 ≤ dy ∧ dy ≤ 2932896 then some (civilFromDays dy) else none

/-! ## Observations and the extractor (`_parse_data_item`) -/

/-- An in-memory observation `{'date': ..., 'price': ...}`: the date is the
raw date string (a token), the price a number. -/
structure Obs where
  date : DateTok
  price : ℚ
deriving DecidableEq, Repr

/-- A raw date-like or price-like field value: a JSON number or a string. -/
inductive DP where
  | num (q : ℚ)
  | str (t : DateTok)
deriving DecidableEq, Repr

/-- Python truthiness of a field value (`if date_value and price_value`):
`0`/`0.0` and the empty string are falsy. -/
def truthyDP : DP → Bool
  | .num q => q != 0
  | .str t => render t != ([] : Str)

/-- A raw candidate item handed to `_parse_data_item`: a keyed record or an
ordered list.  (Scalar candidates are rejected up front by the
`isinstance(item, (dict, list))` check.) -/
inductive Cand where
  | obj (fields : List (Str × DP))
  | arr (elems : List DP)

/-- `date_fields` alias list of `_parse_data_item`. -/
def dateFields : List Str :=
  ["date", "time", "timestamp", "x", "datetime", "t"].map ofString

/-- `price_fields` alias list of `_parse_data_item`. -/
def priceFields : List Str :=
  ["price", "value", "y", "close", "last", "settlement"].map ofString

/-- `for field in aliases: if field in item: value = item[field]; break`. -/
def findField (aliases : List Str) (fields : List (Str × DP)) : Option DP :=
  match aliases with
  | [] => none
  | a :: rest =>
      match fields.find? (fun e => e.1 == a) with
      | some e => some e.2
      | none => findField rest fields

/-- Field location of `_parse_data_item` (lines 445–467): alias search on a
record, the two-entry positional fallback, and the `[date, price]` list
shape. -/
def locateDP : Cand → Option DP × Option DP
  | .obj fields =>
      let dv := findField dateFields fields
      let pv := findField priceFields fields
      if dv.isNone ∧ pv.isNone ∧ fields.length = 2 then
        let vs := fields.map (·.2)
        (vs[0]?, vs[1]?)
      else (dv, pv)
  | .arr elems => if 2 ≤ elems.length then (elems[0]?, elems[1]?) else (none, none)

/-- Date normalisation of `_parse_data_item` (lines 470–507): numeric epoch
values above `1e10` are treated as milliseconds and divided by 1000, then
converted; strings go through the ordered format list plus regex fallback. -/
def normalize_date_value : DP → Option CalDate
  | .num q => pyFromtimestampDate (if q > 10 ^ 10 then q / 1000 else q)
  | .str t => parse_date_str t

/-- Price normalisation of `_parse_data_item` (lines 512–519): `float(...)`
(a date-shaped string never parses as a float), then the corruption guard
rejecting `price <= 0 or price > 1000000`. -/
def normalize_price : DP → Option ℚ
  | .num q => if q ≤ 0 ∨ q > 1000000 then none else some q
  | .str _ => none

/-- `_parse_data_item`: locate date and price values, check truthiness,
normalise both; the resulting date is re-serialised as `'%Y-%m-%d'` text. -/
def parse_data_item (item : Cand) : Option Obs :=
  match locateDP item with
  | (some dv, some pv) =>
      if truthyDP dv ∧ truthyDP pv then
        match normalize_date_value dv with
        | none => none
        | some c =>
            match normalize_price pv with
            | none => none
            | some q => some ⟨.iso c.y c.m c.d, q⟩
      else none
  | _ => none

/-! ## The persisted store -/

/-- The `price` cell of a persisted row: numeric text with value `q` (written
rows always carry the canonical two-decimal rendering of `q`), or empty. -/
inductive PriceField where
  | num (q : ℚ)
  | empty
deriving DecidableEq, Repr

/-- The `date` cell of a persisted row: a date token, or — the known
corruption mode — a serialized nested list of `[timestamp, price]` pairs
(whose text starts with `'['`). -/
inductive DateField where
  | tok (t : DateTok)
  | listLit (items : List (DateTok × ℚ))
deriving DecidableEq, Repr

/-- A persisted CSV data row (the header row is implicit). -/
structure Row where
  date : DateField
  price : PriceField
deriving DecidableEq, Repr

/-- Per-row behaviour of `load_existing_csv` (lines 548–611).  The
serialized-list branch normalises each inner pair with the single verbose
format (falling back to the raw text) and performs no price check; the
normal branch requires both cells nonempty, applies the corruption guard
`price > 1000000 or price <= 0`, and normalises the date text. -/
def load_row (r : Row) : List Obs :=
  match r.date with
  | .listLit items =>
      items.map (fun it =>
        match tryFmt .fVerbose it.1 with
        | some c => ⟨.iso c.y c.m c.d, it.2⟩
        | none => ⟨it.1, it.2⟩)
  | .tok t =>
      match r.price with
      | .empty => []
      | .num q =>
          if render t = ([] : Str) then []
          else if q > 1000000 ∨ q ≤ 0 then []
          else [⟨load_normalize_date t, q⟩]

/-- `load_existing_csv`: concatenate the per-row results in file order. -/
def load_existing_csv (rows : List Row) : List Obs :=
  rows.foldr (fun r acc => load_row r ++ acc) []

/-! ## The chart loader (`visualize.py`) -/

/-- `EUA2DataVisualizer._parse_date_price`: its own format order, the regex
fallback, and a `float` parse of the price text — with no range check. -/
def vis_parse_date_price (t : DateTok) (price : Option ℚ) : Option (CalDate × ℚ) :=
  let dOpt :=
    match tryFmts visFmts t with
    | some c => some c
    | none => regexFindIso t
  match dOpt, price with
  | some c, some q => some (c, q)
  | _, _ => none

/-- Per-row behaviour of `EUA2DataVisualizer.load_data` (lines 59–99): the
serialized-list branch feeds each inner pair to `_parse_date_price` with no
range check; the normal branch skips rows whose price parses above
`1000000`. -/
def vis_load_row (r : Row) : List (CalDate × ℚ) :=
  match r.date with
  | .listLit items =>
      items.foldr (fun it acc =>
        match vis_parse_date_price it.1 (some it.2) with
        | some o => o :: acc
        | none => acc) []
  | .tok t =>
      if render t = ([] : Str) ∧ r.price = .empty then []
      else
        match r.price with
        | .num q =>
            if q > 1000000 then []
            else
              match vis_parse_date_price t (some q) with
              | some o => [o]
              | none => []
        | .empty =>
            match vis_parse_date_price t none with
            | some o => [o]
            | none => []

/-! ## The writer (`save_to_csv`) -/

/-- Value of the text `f'{q:.2f}'` (round to two decimals; exact on prices
that already have at most two decimals, the only ones these theorems format). -/
def fmt2 (q : ℚ) : ℚ := (⌊q * 100 + 1 / 2⌋ : ℚ) / 100

/-- Per-item write step of `save_to_csv` (lines 699–755): re-parse the date
text through the scraper's format list, then emit a row exactly when
`price > 0 and price < 1000000`. -/
def write_item (o : Obs) : Option Row :=
  match parse_date_str o.date with
  | none => none
  | some c =>
      if 0 < o.price ∧ o.price < 1000000 then
        some ⟨.tok (.iso c.y c.m c.d), .num (fmt2 o.price)⟩
      else none

/-- The rows written by `save_to_csv`'s output loop. -/
def write_rows (l : List Obs) : List Row := l.filterMap write_item

/-! ## The merge (`save_to_csv`, lines 658–690) -/

/-- The raw date string of an observation — the merge dictionary's key. -/
def obsKey (o : Obs) : Str := render o.date

/-- `date in data_dict` / `data_dict[date]` on an insertion-ordered
association list. -/
def assocFind (dict : List (Str × Obs)) (k : Str) : Option Obs :=
  (dict.find? (fun e => e.1 == k)).map (·.2)

/-- `data_dict[date] = item`: update in place if the key exists (Python dicts
keep the original insertion position), else append. -/
def dictInsert (k : Str) (v : Obs) : List (Str × Obs) → List (Str × Obs)
  | [] => [(k, v)]
  | e :: rest => if e.1 == k then (k, v) :: rest else e :: dictInsert k v rest

/-- The dates of the incoming batch (`[d.get('date') for d in data]`). -/
def datesOf (l : List Obs) : List Str := l.map obsKey

/-- The merge loop of `save_to_csv` (lines 666–672): for each item of
`existing + data`, insert when the date is truthy and either not yet present
or among the incoming batch's dates. -/
def mergeLoop (newDates : List Str) : List Obs → List (Str × Obs) → List (Str × Obs)
  | [], dict => dict
  | o :: rest, dict =>
      mergeLoop newDates rest
        (if obsKey o = ([] : Str) then dict
         else if (assocFind dict (obsKey o)).isNone ∨ obsKey o ∈ newDates then
           dictInsert (obsKey o) o dict
         else dict)

/-- `merged_data = list(data_dict.values())` after merging `existing + data`. -/
def merge_data (existing data : List Obs) : List Obs :=
  (mergeLoop (datesOf data) (existing ++ data) []).map (·.2)

/-- Sort key comparison of `sorted(merged_data, key=lambda x: x.get('date', ''))`:
Python's stable sort by the raw date string. -/
def obsLe (a b : Obs) : Prop := strLeB (obsKey a) (obsKey b) = true

instance : DecidableRel obsLe := fun a b => by unfold obsLe; infer_instance

/-- `sorted(..., key=lambda x: x.get('date', ''))` (stable). -/
def sort_merged (l : List Obs) : List Obs := List.insertionSort obsLe l

/-- The final dedup pass (lines 684–690): keep the first item per truthy
date string. -/
def dedupLoop : List Obs → List Str → List Obs
  | [], _ => []
  | o :: rest, seen =>
      if obsKey o ≠ ([] : Str) ∧ obsKey o ∉ seen then
        o :: dedupLoop rest (obsKey o :: seen)
      else dedupLoop rest seen

/-- `unique_data` of `save_to_csv`. -/
def dedup_dates (l : List Obs) : List Obs := dedupLoop l []

/-- The merged, sorted, deduplicated series `save_to_csv` builds before
writing (the `update_existing` path). -/
def merged_series (existing data : List Obs) : List Obs :=
  dedup_dates (sort_merged (merge_data existing data))

/-- Rows written by `save_to_csv(data, update_existing=True)` over an
existing store. -/
def save_rows_update (existing data : List Obs) : List Row :=
  write_rows (merged_series existing data)

/-- Rows written by `save_to_csv` when not merging (`update_existing=False`,
or no store file yet): `merged_data = data`. -/
def save_rows_overwrite (data : List Obs) : List Row :=
  write_rows (dedup_dates (sort_merged data))

/-- `save_to_csv(data, update_existing)` against a store that holds `rows`
(`none` = no store file): the guard `raise ValueError("No data to save")`
fires before the store is opened; otherwise the function returns the rows it
wrote. -/
def save_to_csv (dataArg : Option (List Obs)) (points : List Obs)
    (store : Option (List Row)) (upd : Bool) : Except String (List Row) :=
  let data := dataArg.getD points
  if data = [] then .error "No data to save"
  else
    match upd, store with
    | true, some rows => .ok (save_rows_update (load_existing_csv rows) data)
    | _, _ => .ok (save_rows_overwrite data)

/-- The store's content after a `save_to_csv` call: unchanged when the call
raises (the exception fires before the file is opened). -/
def store_after_save (dataArg : Option (List Obs)) (points : List Obs)
    (store : Option (List Row)) (upd : Bool) : Option (List Row) :=
  match save_to_csv dataArg points store upd with
  | .ok rows => some rows
  | .error _ => store

/-- `cleanup_csv`: missing or unloadable stores are left alone; otherwise the
loaded data is rewritten with `update_existing=False`. -/
def cleanup_csv (store : Option (List Row)) : Option (List Row) :=
  match store with
  | none => none
  | some rows =>
      if load_existing_csv rows = [] then some rows
      else some (save_rows_overwrite (load_existing_csv rows))

/-- `scrape_eua2.main`: clean up the store, scrape, and — only when the fetch
layer yielded data — merge-and-save.  Returns the final store content and the
reported count of newly scraped records. -/
def run_main (store : Option (List Row)) (scraped : List Obs) :
    Option (List Row) × Nat :=
  let store1 := cleanup_csv store
  if scraped = [] then (store1, 0)
  else (store_after_save (some scraped) [] store1 true, scraped.length)

/-! ## Observation-level views used in the statements -/

/-- The calendar dates of a list of written rows (written rows always carry a
single ISO date token). -/
def rows_dates (rows : List Row) : List CalDate :=
  rows.filterMap (fun r =>
    match r.date with
    | .tok (.iso y m d) => some ⟨y, m, d⟩
    | _ => none)

/-- Strictly ascending chain of calendar dates. -/
def ascB : List CalDate → Bool
  | [] => true
  | [_] => true
  | a :: b :: rest => dateLtB a b && ascB (b :: rest)

/-- A token that is a textually and calendar-valid ISO date. -/
def isoValidB : DateTok → Bool
  | .iso y m d => validDateB y m d
  | _ => false

/-- Strict raw-date-string order on observations (the order underlying the
writer's sort). -/
def obsStrictLt (a b : Obs) : Prop := strLtB (obsKey a) (obsKey b) = true

/-- First lookup by raw date string in a list of observations. -/
def lookupByDate (l : List Obs) (k : Str) : Option Obs :=
  l.find? (fun o => obsKey o == k)

/-- The right-biased choice the merge rule is claimed to implement: the
incoming series' observation when present for the date, else the existing
series'. -/
def rightBiased (existing data : List Obs) (k : Str) : Option Obs :=
  (lookupByDate data k).or (lookupByDate existing k)

/-! # Order lemmas for code-point strings -/

theorem strLtB_irrefl (a : Str) : strLtB a a = false := by
  induction a with
  | nil => rfl
  | cons x xs ih => simp [strLtB, ih]

theorem strLtB_cons (x y : Nat) (xs ys : Str) :
    strLtB (x :: xs) (y :: ys) =
      if x < y then true else if y < x then false else strLtB xs ys := rfl

theorem strLtB_trans {a b c : Str} (h₁ : strLtB a b = true) (h₂ : strLtB b c = true) :
    strLtB a c = true := by
  induction a generalizing b c with
  | nil =>
      cases b with
      | nil => simp [strLtB] at h₁
      | cons y ys =>
          cases c with
          | nil => simp [strLtB] at h₂
          | cons z zs => rfl
  | cons x xs ih =>
      cases b with
      | nil => simp [strLtB] at h₁
      | cons y ys =>
          cases c with
          | nil => simp [strLtB] at h₂
          | cons z zs =>
              rw [strLtB_cons] at h₁ h₂ ⊢
              rcases Nat.lt_trichotomy x y with hxy | hxy | hxy
              · rw [if_pos hxy] at h₁
                rcases Nat.lt_trichotomy y z with hyz | hyz | hyz
                · rw [if_pos (Nat.lt_trans hxy hyz)]
                · subst hyz; rw [if_pos hxy]
                · rw [if_neg (by omega), if_pos hyz] at h₂; simp at h₂
              · subst hxy
                rw [if_neg (Nat.lt_irrefl x), if_neg (Nat.lt_irrefl x)] at h₁
                rcases Nat.lt_trichotomy x z with hxz | hxz | hxz
                · rw [if_pos hxz]
                · subst hxz
                  rw [if_neg (Nat.lt_irrefl x), if_neg (Nat.lt_irrefl x)] at h₂ ⊢
                  exact ih h₁ h₂
                · rw [if_neg (by omega), if_pos hxz] at h₂; simp at h₂
              · rw [if_neg (by omega), if_pos hxy] at h₁; simp at h₁

theorem strLtB_eq_of_not {a b : Str} (h₁ : strLtB a b = false) (h₂ : strLtB b a = false) :
    a = b := by
  induction a generalizing b with
  | nil =>
      cases b with
      | nil => rfl
      | cons y ys => simp [strLtB] at h₁
  | cons x xs ih =>
      cases b with
      | nil => simp [strLtB] at h₂
      | cons y ys =>
          rw [strLtB_cons] at h₁ h₂
          rcases Nat.lt_trichotomy x y with hxy | hxy | hxy
          · rw [if_pos hxy] at h₁; simp at h₁
          · subst hxy
            rw [if_neg (Nat.lt_irrefl x), if_neg (Nat.lt_irrefl x)] at h₁ h₂
            exact congrArg (x :: ·) (ih h₁ h₂)
          · rw [if_pos hxy] at h₂; simp at h₂

theorem strLtB_asymm {a b : Str} (h : strLtB a b = true) : strLtB b a = false := by
  by_contra hc
  have hba : strLtB b a = true := by
    cases hx : strLtB b a with
    | false => exact absurd hx hc
    | true => rfl
  have := strLtB_trans h hba
  rw [strLtB_irrefl] at this
  exact Bool.false_ne_true this

theorem strLeB_total (a b : Str) : strLeB a b = true ∨ strLeB b a = true := by
  unfold strLeB
  cases h : strLtB b a with
  | false => left; rfl
  | true => right; rw [strLtB_asymm h]; rfl

/-! # Zero-padded decimal text compares like the number it renders -/

theorem pad4_length (n : Nat) : (pad4 n).length = 4 := rfl

theorem pad2_length (n : Nat) : (pad2 n).length = 2 := rfl

theorem pad4_lt (a b : Nat) (ha : a ≤ 9999) (hb : b ≤ 9999) :
    strLtB (pad4 a) (pad4 b) = decide (a < b) := by
  simp only [pad4, digit, strLtB_cons, strLtB]
  split_ifs <;> simp <;> omega

theorem pad2_lt (a b : Nat) (ha : a ≤ 99) (hb : b ≤ 99) :
    strLtB (pad2 a) (pad2 b) = decide (a < b) := by
  simp only [pad2, digit, strLtB_cons, strLtB]
  split_ifs <;> simp <;> omega

theorem pad4_inj (a b : Nat) (ha : a ≤ 9999) (hb : b ≤ 9999) :
    pad4 a = pad4 b ↔ a = b := by
  simp only [pad4, digit, List.cons.injEq, and_true]
  omega

theorem pad2_inj (a b : Nat) (ha : a ≤ 99) (hb : b ≤ 99) :
    pad2 a = pad2 b ↔ a = b := by
  simp only [pad2, digit, List.cons.injEq, and_true]
  omega

theorem strLtB_append {p q : Str} (r s : Str) (h : p.length = q.length) :
    strLtB (p ++ r) (q ++ s) = if p = q then strLtB r s else strLtB p q := by
  induction p generalizing q with
  | nil =>
      cases q with
      | nil => simp
      | cons y ys => simp at h
  | cons x xs ih =>
      cases q with
      | nil => simp at h
      | cons y ys =>
          simp only [List.length_cons, Nat.succ.injEq] at h
          simp only [List.cons_append, strLtB_cons]
          rcases Nat.lt_trichotomy x y with hxy | hxy | hxy
          · have hne : (x :: xs) ≠ (y :: ys) := fun hc => by
              injection hc with h1 _; omega
            simp only [if_pos hxy, if_neg hne]
          · subst hxy
            simp only [if_neg (Nat.lt_irrefl x)]
            rw [ih h]
            by_cases hx : xs = ys
            · subst hx; simp
            · have hne : (x :: xs) ≠ (x :: ys) := by simp [hx]
              rw [if_neg hx, if_neg hne]
          · have h1 : ¬ x < y := by omega
            have hne : (x :: xs) ≠ (y :: ys) := fun hc => by
              injection hc with h2 _; omega
            simp only [if_neg h1, if_pos hxy, if_neg hne]

/-- The text of an ISO token, written head-associated. -/
theorem render_iso (y m d : Nat) :
    render (.iso y m d) = pad4 y ++ (45 :: (pad2 m ++ (45 :: pad2 d))) := by
  show pad4 y ++ ofString "-" ++ pad2 m ++ ofString "-" ++ pad2 d = _
  have h45 : ofString "-" = [45] := rfl
  simp [h45, List.append_assoc]

/-- ISO date texts compare exactly like the calendar dates they render
(fields in `datetime` range). -/
theorem render_iso_lt (y m d y' m' d' : Nat)
    (hy : y ≤ 9999) (hy' : y' ≤ 9999) (hm : m ≤ 99) (hm' : m' ≤ 99)
    (hd : d ≤ 99) (hd' : d' ≤ 99) :
    strLtB (render (.iso y m d)) (render (.iso y' m' d')) =
      dateLtB ⟨y, m, d⟩ ⟨y', m', d'⟩ := by
  rw [render_iso, render_iso,
    strLtB_append _ _ (by rw [pad4_length, pad4_length])]
  by_cases hyy : y = y'
  · subst hyy
    rw [if_pos rfl, strLtB_cons, if_neg (Nat.lt_irrefl 45), if_neg (Nat.lt_irrefl 45),
      strLtB_append _ _ (by rw [pad2_length, pad2_length])]
    by_cases hmm : m = m'
    · subst hmm
      rw [if_pos rfl, strLtB_cons, if_neg (Nat.lt_irrefl 45), if_neg (Nat.lt_irrefl 45),
        pad2_lt d d' hd hd']
      simp [dateLtB]
    · rw [if_neg (by simp [pad2_inj m m' hm hm', hmm]), pad2_lt m m' hm hm']
      simp [dateLtB, hmm]
  · rw [if_neg (by simp [pad4_inj y y' hy hy', hyy]), pad4_lt y y' hy hy']
    simp [dateLtB, hyy]

theorem weekdayName_ne_nil (w : Nat) : weekdayName w ≠ ([] : Str) := by
  unfold weekdayName
  split <;> simp [ofString]

/-- Every recognised token shape renders to nonempty text, so the code's
truthiness tests on date strings always pass. -/
theorem render_ne_nil (t : DateTok) : render t ≠ ([] : Str) := by
  cases t with
  | iso y m d => simp [render, pad4, digit]
  | verbose w m d y =>
      simp only [render, ne_eq, List.append_eq_nil]
      intro h
      exact absurd h.1.1.1.1.1.1 (weekdayName_ne_nil w)
  | isodt y m d => simp [render, pad4, digit]
  | slash a b y => simp [render, pad2, digit]

/-- ISO date texts are equal exactly when their calendar fields are. -/
theorem render_iso_inj (y m d y' m' d' : Nat)
    (hy : y ≤ 9999) (hy' : y' ≤ 9999) (hm : m ≤ 99) (hm' : m' ≤ 99)
    (hd : d ≤ 99) (hd' : d' ≤ 99) :
    render (.iso y m d) = render (.iso y' m' d') ↔ y = y' ∧ m = m' ∧ d = d' := by
  constructor
  · intro h
    rw [render_iso, render_iso] at h
    obtain ⟨h4, hrest⟩ := List.append_inj h (by rw [pad4_length, pad4_length])
    obtain ⟨-, hrest⟩ := List.cons.inj hrest
    obtain ⟨h2, hrest⟩ := List.append_inj hrest (by rw [pad2_length, pad2_length])
    obtain ⟨-, hd2⟩ := List.cons.inj hrest
    refine ⟨(pad4_inj y y' hy hy').mp h4, (pad2_inj m m' hm hm').mp h2, ?_⟩
    simp only [pad2, digit, List.cons.injEq, and_true] at hd2
    omega
  · rintro ⟨rfl, rfl, rfl⟩; rfl
/-! # Generic machinery lemmas -/

section Machinery

theorem strLeB_def (a b : Str) : strLeB a b = !(strLtB b a) := rfl

theorem strLeB_trans {a b c : Str} (h₁ : strLeB a b = true) (h₂ : strLeB b c = true) :
    strLeB a c = true := by
  rw [strLeB_def, Bool.not_eq_true'] at h₁ h₂ ⊢
  cases hca : strLtB c a with
  | false => rfl
  | true =>
      cases hab : strLtB a b with
      | true => rw [strLtB_trans hca hab] at h₂; exact h₂
      | false =>
          have hba : a = b := strLtB_eq_of_not hab h₁
          subst hba
          rw [hca] at h₂
          exact h₂

instance : IsTotal Obs obsLe := ⟨fun a b => strLeB_total (obsKey a) (obsKey b)⟩

instance : IsTrans Obs obsLe := ⟨fun _ _ _ => strLeB_trans⟩

/-- The comparison underlying row equality-of-output arguments: strict order
on the written rows' raw date strings. -/
def rowKey : Row → Str
  | ⟨.tok t, _⟩ => render t
  | ⟨.listLit _, _⟩ => []

def rowLt (r₁ r₂ : Row) : Prop := strLtB (rowKey r₁) (rowKey r₂) = true

instance : DecidableRel rowLt := fun a b => by unfold rowLt; infer_instance

instance : IsAntisymm Row rowLt :=
  ⟨fun a b h₁ h₂ => by
    unfold rowLt at h₁ h₂
    rw [strLtB_asymm h₁] at h₂
    exact absurd h₂ (by simp)⟩

theorem obsLe_of_strict {a b : Obs} (h : obsStrictLt a b) : obsLe a b := by
  unfold obsStrictLt at h
  unfold obsLe
  rw [strLeB_def, strLtB_asymm h]
  rfl

theorem obsStrictLt_of_le_ne {a b : Obs} (h : obsLe a b) (hne : obsKey a ≠ obsKey b) :
    obsStrictLt a b := by
  unfold obsLe at h
  unfold obsStrictLt
  rw [strLeB_def, Bool.not_eq_true'] at h
  cases hab : strLtB (obsKey a) (obsKey b) with
  | true => rfl
  | false => exact absurd (strLtB_eq_of_not hab h) hne

/-! ### dedup -/

theorem dedupLoop_sublist (l : List Obs) (seen : List Str) :
    (dedupLoop l seen).Sublist l := by
  induction l generalizing seen with
  | nil => simp [dedupLoop]
  | cons o rest ih =>
      unfold dedupLoop
      split_ifs
      · exact (ih (obsKey o :: seen)).cons₂ o
      · exact (ih seen).cons o

theorem dedupLoop_not_seen (l : List Obs) (seen : List Str) :
    ∀ o ∈ dedupLoop l seen, obsKey o ∉ seen := by
  induction l generalizing seen with
  | nil => simp [dedupLoop]
  | cons o rest ih =>
      unfold dedupLoop
      split_ifs with h
      · intro x hx
        rcases List.mem_cons.mp hx with rfl | hx
        · exact h.2
        · intro hs
          exact ih (obsKey o :: seen) x hx (List.mem_cons_of_mem _ hs)
      · exact ih seen

theorem dedupLoop_nodup (l : List Obs) (seen : List Str) :
    (datesOf (dedupLoop l seen)).Nodup := by
  induction l generalizing seen with
  | nil => simp [dedupLoop, datesOf]
  | cons o rest ih =>
      unfold dedupLoop
      split_ifs with h
      · simp only [datesOf, List.map_cons, List.nodup_cons]
        refine ⟨?_, ih (obsKey o :: seen)⟩
        intro hmem
        obtain ⟨x, hx, hk⟩ := List.mem_map.mp hmem
        exact dedupLoop_not_seen rest (obsKey o :: seen) x hx (by rw [← hk]; exact List.mem_cons_self _ _)
      · exact ih seen

theorem dedupLoop_eq_self (l : List Obs) (seen : List Str)
    (hN : (datesOf l).Nodup) (hs : ∀ o ∈ l, obsKey o ∉ seen) :
    dedupLoop l seen = l := by
  induction l generalizing seen with
  | nil => rfl
  | cons o rest ih =>
      simp only [datesOf, List.map_cons, List.nodup_cons] at hN
      unfold dedupLoop
      rw [if_pos ⟨render_ne_nil o.date, hs o (List.mem_cons_self _ _)⟩]
      congr 1
      refine ih (obsKey o :: seen) hN.2 ?_
      intro x hx
      simp only [List.mem_cons, not_or]
      refine ⟨?_, hs x (List.mem_cons_of_mem _ hx)⟩
      intro hk
      exact hN.1 (List.mem_map.mpr ⟨x, hx, hk⟩)

/-- `dedup_dates` of any sort output is strictly ascending in the raw date
strings: the dedup output has no repeated date and the sort output is
`obsLe`-sorted. -/
theorem dedup_sort_strict (l : List Obs) :
    (dedup_dates (sort_merged l)).Pairwise obsStrictLt := by
  have hsorted : (sort_merged l).Pairwise obsLe :=
    List.sorted_insertionSort obsLe l
  have hsub : (dedup_dates (sort_merged l)).Sublist (sort_merged l) :=
    dedupLoop_sublist _ _
  have hpair : (dedup_dates (sort_merged l)).Pairwise obsLe :=
    List.Pairwise.sublist hsub hsorted
  have hnodup : (datesOf (dedup_dates (sort_merged l))).Nodup :=
    dedupLoop_nodup _ _
  have hneq : (dedup_dates (sort_merged l)).Pairwise (fun a b => obsKey a ≠ obsKey b) := by
    have := hnodup
    unfold datesOf at this
    exact (List.pairwise_map).mp this
  exact (hpair.and hneq).imp (fun h => obsStrictLt_of_le_ne h.1 h.2)

/-! ### association-list dictionary -/

theorem assocFind_eq_none {dict : List (Str × Obs)} {k : Str} :
    assocFind dict k = none ↔ k ∉ dict.map (·.1) := by
  unfold assocFind
  rw [Option.map_eq_none', List.find?_eq_none]
  constructor
  · intro h hk
    obtain ⟨e, he, hek⟩ := List.mem_map.mp hk
    exact (by simpa using h e he : ¬ e.1 = k) hek
  · intro h e he
    simp only [beq_iff_eq]
    intro hek
    exact h (List.mem_map.mpr ⟨e, he, hek⟩)

theorem dictInsert_of_not_mem {dict : List (Str × Obs)} {k : Str} (v : Obs)
    (h : k ∉ dict.map (·.1)) :
    dictInsert k v dict = dict ++ [(k, v)] := by
  induction dict with
  | nil => rfl
  | cons e rest ih =>
      simp only [List.map_cons, List.mem_cons, not_or] at h
      unfold dictInsert
      rw [if_neg (by simp [Ne.symm h.1])]
      rw [ih h.2, List.cons_append]

theorem dictInsert_keys_of_mem {dict : List (Str × Obs)} {k : Str} (v : Obs)
    (h : k ∈ dict.map (·.1)) :
    (dictInsert k v dict).map (·.1) = dict.map (·.1) := by
  induction dict with
  | nil => simp at h
  | cons e rest ih =>
      unfold dictInsert
      by_cases he : e.1 = k
      · rw [if_pos (by simp [he])]
        simp [he]
      · rw [if_neg (by simp [he])]
        simp only [List.map_cons, List.mem_cons] at h ⊢
        rcases h with h | h
        · exact absurd h.symm he
        · rw [ih h]

theorem dictInsert_keys_nodup {dict : List (Str × Obs)} {k : Str} (v : Obs)
    (h : (dict.map (·.1)).Nodup) :
    ((dictInsert k v dict).map (·.1)).Nodup := by
  by_cases hk : k ∈ dict.map (·.1)
  · rw [dictInsert_keys_of_mem v hk]; exact h
  · rw [dictInsert_of_not_mem v hk]
    simp only [List.map_append, List.map_cons, List.map_nil]
    rw [List.nodup_append]
    exact ⟨h, by simp, by simpa using fun hk2 => hk hk2⟩

theorem assocFind_dictInsert_self (dict : List (Str × Obs)) (k : Str) (v : Obs) :
    assocFind (dictInsert k v dict) k = some v := by
  induction dict with
  | nil => simp [dictInsert, assocFind]
  | cons e rest ih =>
      unfold dictInsert
      by_cases he : e.1 = k
      · rw [if_pos (by simp [he])]
        unfold assocFind
        rw [List.find?_cons_of_pos _ (by simp)]
        rfl
      · rw [if_neg (by simp [he])]
        unfold assocFind at ih ⊢
        rw [List.find?_cons_of_neg _ (by simp [he])]
        exact ih

theorem assocFind_dictInsert_ne (dict : List (Str × Obs)) {k k' : Str} (v : Obs)
    (h : k' ≠ k) :
    assocFind (dictInsert k v dict) k' = assocFind dict k' := by
  induction dict with
  | nil => simp [dictInsert, assocFind, Ne.symm h]
  | cons e rest ih =>
      unfold dictInsert
      by_cases he : e.1 = k
      · rw [if_pos (by simp [he])]
        unfold assocFind
        rw [List.find?_cons_of_neg _ (by simp [Ne.symm h]),
          List.find?_cons_of_neg _ (by simp [he, Ne.symm h])]
      · rw [if_neg (by simp [he])]
        unfold assocFind at ih ⊢
        by_cases he' : e.1 = k'
        · rw [List.find?_cons_of_pos _ (by simp [he']),
            List.find?_cons_of_pos _ (by simp [he'])]
        · rw [List.find?_cons_of_neg _ (by simp [he']),
            List.find?_cons_of_neg _ (by simp [he'])]
          exact ih

/-! ### lookups -/

theorem lookupByDate_eq_none {l : List Obs} {k : Str} :
    lookupByDate l k = none ↔ k ∉ datesOf l := by
  unfold lookupByDate datesOf
  rw [List.find?_eq_none]
  constructor
  · intro h hk
    obtain ⟨o, ho, hko⟩ := List.mem_map.mp hk
    exact (by simpa using h o ho : ¬ obsKey o = k) hko
  · intro h o ho
    simp only [beq_iff_eq]
    intro hk
    exact h (List.mem_map.mpr ⟨o, ho, hk⟩)

theorem lookupByDate_eq_some {l : List Obs} {k : Str} {o : Obs}
    (h : lookupByDate l k = some o) : o ∈ l ∧ obsKey o = k :=
  ⟨List.mem_of_find?_eq_some h, by simpa using List.find?_some h⟩

theorem lookupByDate_isSome_of_mem {l : List Obs} {k : Str} (h : k ∈ datesOf l) :
    (lookupByDate l k).isSome = true := by
  cases hl : lookupByDate l k with
  | some o => rfl
  | none => exact absurd h (lookupByDate_eq_none.mp hl)

theorem lookupByDate_self {l : List Obs} (hN : (datesOf l).Nodup) {o : Obs}
    (h : o ∈ l) : lookupByDate l (obsKey o) = some o := by
  induction l with
  | nil => simp at h
  | cons x rest ih =>
      simp only [datesOf, List.map_cons, List.nodup_cons] at hN
      rcases List.mem_cons.mp h with rfl | h
      · unfold lookupByDate
        rw [List.find?_cons_of_pos _ (by simp)]
      · have hne : obsKey x ≠ obsKey o := fun hc =>
          hN.1 (hc ▸ List.mem_map.mpr ⟨o, h, rfl⟩)
        unfold lookupByDate at ih ⊢
        rw [List.find?_cons_of_neg _ (by simp [hne])]
        exact ih hN.2 h

theorem dictInsert_inv {dict : List (Str × Obs)} (v : Obs)
    (hinv : ∀ e ∈ dict, e.1 = obsKey e.2) :
    ∀ e ∈ dictInsert (obsKey v) v dict, e.1 = obsKey e.2 := by
  induction dict with
  | nil => simp [dictInsert]
  | cons e rest ih =>
      unfold dictInsert
      split_ifs with he
      · intro x hx
        rcases List.mem_cons.mp hx with rfl | hx
        · rfl
        · exact hinv x (List.mem_cons_of_mem _ hx)
      · intro x hx
        rcases List.mem_cons.mp hx with rfl | hx
        · exact hinv x (List.mem_cons_self _ _)
        · exact ih (fun e' he' => hinv e' (List.mem_cons_of_mem _ he')) x hx

/-! ### the merge loop -/

theorem mergeLoop_cons (nd : List Str) (o : Obs) (rest : List Obs)
    (dict : List (Str × Obs)) :
    mergeLoop nd (o :: rest) dict =
      mergeLoop nd rest
        (if (assocFind dict (obsKey o)).isNone ∨ obsKey o ∈ nd then
          dictInsert (obsKey o) o dict
         else dict) := by
  conv_lhs => rw [mergeLoop]
  rw [if_neg (show obsKey o ≠ ([] : Str) from render_ne_nil o.date)]

theorem mergeLoop_append (nd : List Str) (l₁ l₂ : List Obs) (dict : List (Str × Obs)) :
    mergeLoop nd (l₁ ++ l₂) dict = mergeLoop nd l₂ (mergeLoop nd l₁ dict) := by
  induction l₁ generalizing dict with
  | nil => rfl
  | cons o rest ih =>
      rw [List.cons_append, mergeLoop_cons, mergeLoop_cons, ih]

theorem mergeLoop_fresh (nd : List Str) (E : List Obs) :
    ∀ dict : List (Str × Obs),
      (∀ o ∈ E, obsKey o ∉ dict.map (·.1)) → (datesOf E).Nodup →
      mergeLoop nd E dict = dict ++ E.map (fun o => (obsKey o, o)) := by
  induction E with
  | nil => intro dict _ _; simp [mergeLoop]
  | cons o rest ih =>
      intro dict hfresh hN
      simp only [datesOf, List.map_cons, List.nodup_cons] at hN
      have hnotmem : obsKey o ∉ dict.map (·.1) := hfresh o (List.mem_cons_self _ _)
      rw [mergeLoop_cons,
        if_pos (Or.inl (by rw [assocFind_eq_none.mpr hnotmem]; rfl)),
        dictInsert_of_not_mem o hnotmem,
        ih (dict ++ [(obsKey o, o)]) ?_ hN.2]
      · simp
      · intro x hx
        simp only [List.map_append, List.map_cons, List.map_nil, List.mem_append,
          List.mem_singleton, not_or]
        refine ⟨hfresh x (List.mem_cons_of_mem _ hx), ?_⟩
        intro hk
        exact hN.1 (hk ▸ List.mem_map.mpr ⟨x, hx, rfl⟩)

theorem mergeLoop_incoming (nd : List Str) (D : List Obs) :
    ∀ dict : List (Str × Obs),
      (∀ o ∈ D, obsKey o ∈ nd) → (datesOf D).Nodup →
      ∀ k, assocFind (mergeLoop nd D dict) k =
        if k ∈ datesOf D then lookupByDate D k else assocFind dict k := by
  induction D with
  | nil => intro dict _ _ k; simp [mergeLoop, datesOf]
  | cons o rest ih =>
      intro dict hin hN k
      simp only [datesOf, List.map_cons, List.nodup_cons] at hN
      rw [mergeLoop_cons, if_pos (Or.inr (hin o (List.mem_cons_self _ _))),
        ih _ (fun x hx => hin x (List.mem_cons_of_mem _ hx)) hN.2 k]
      by_cases hk : k ∈ datesOf rest
      · rw [if_pos hk,
          if_pos (by simp only [datesOf, List.map_cons, List.mem_cons]; exact Or.inr hk)]
        have hne : obsKey o ≠ k := fun hc => hN.1 (hc ▸ hk)
        unfold lookupByDate
        rw [List.find?_cons_of_neg _ (by simp [hne])]
      · rw [if_neg hk]
        by_cases hko : k = obsKey o
        · subst hko
          rw [assocFind_dictInsert_self, if_pos (by simp [datesOf])]
          unfold lookupByDate
          rw [List.find?_cons_of_pos _ (by simp)]
        · have hnot : k ∉ datesOf (o :: rest) := by
            simp only [datesOf, List.map_cons, List.mem_cons, not_or]
            exact ⟨hko, hk⟩
          rw [assocFind_dictInsert_ne _ o hko, if_neg hnot]

theorem mergeLoop_keys_nodup (nd : List Str) (L : List Obs) :
    ∀ dict : List (Str × Obs), (dict.map (·.1)).Nodup →
      ((mergeLoop nd L dict).map (·.1)).Nodup := by
  induction L with
  | nil => intro dict h; exact h
  | cons o rest ih =>
      intro dict h
      rw [mergeLoop_cons]
      split_ifs with hc
      · exact ih _ (dictInsert_keys_nodup o h)
      · exact ih _ h

theorem mergeLoop_inv (nd : List Str) (L : List Obs) :
    ∀ dict : List (Str × Obs), (∀ e ∈ dict, e.1 = obsKey e.2) →
      ∀ e ∈ mergeLoop nd L dict, e.1 = obsKey e.2 := by
  induction L with
  | nil => intro dict h; exact h
  | cons o rest ih =>
      intro dict h
      rw [mergeLoop_cons]
      split_ifs with hc
      · exact ih _ (dictInsert_inv o h)
      · exact ih _ h

theorem filter_values (dict : List (Str × Obs)) :
    (dict.map (·.1)).Nodup → (∀ e ∈ dict, e.1 = obsKey e.2) →
    ∀ k, (dict.map (·.2)).filter (fun o => obsKey o == k) = (assocFind dict k).toList := by
  induction dict with
  | nil => intro _ _ k; simp [assocFind]
  | cons e rest ih =>
      intro hN hinv k
      simp only [List.map_cons, List.nodup_cons] at hN
      have he : e.1 = obsKey e.2 := hinv e (List.mem_cons_self _ _)
      simp only [List.map_cons, List.filter_cons]
      by_cases hk : obsKey e.2 = k
      · rw [if_pos (by simp [hk])]
        unfold assocFind
        rw [List.find?_cons_of_pos _ (by simp [he, hk])]
        have hrest : assocFind rest k = none :=
          assocFind_eq_none.mpr (by rw [← hk, ← he]; exact hN.1)
        have := ih hN.2 (fun x hx => hinv x (List.mem_cons_of_mem _ hx)) k
        rw [hrest] at this
        rw [this]
        rfl
      · rw [if_neg (by simp [hk])]
        unfold assocFind
        rw [List.find?_cons_of_neg _ (by simp [he, hk])]
        exact ih hN.2 (fun x hx => hinv x (List.mem_cons_of_mem _ hx)) k

theorem assocFind_map_self (E : List Obs) (k : Str) :
    assocFind (E.map (fun o => (obsKey o, o))) k = lookupByDate E k := by
  induction E with
  | nil => rfl
  | cons o rest ih =>
      simp only [List.map_cons]
      unfold assocFind lookupByDate at ih ⊢
      by_cases hk : obsKey o = k
      · rw [List.find?_cons_of_pos _ (by simp [hk]),
          List.find?_cons_of_pos _ (by simp [hk])]
        rfl
      · rw [List.find?_cons_of_neg _ (by simp [hk]),
          List.find?_cons_of_neg _ (by simp [hk])]
        exact ih

/-- The merge dictionary realises exactly the right-biased union keyed by
the raw date string. -/
theorem merge_assocFind (E D : List Obs) (hE : (datesOf E).Nodup)
    (hD : (datesOf D).Nodup) (k : Str) :
    assocFind (mergeLoop (datesOf D) (E ++ D) []) k = rightBiased E D k := by
  rw [mergeLoop_append,
    mergeLoop_fresh _ E [] (by simp) hE,
    List.nil_append,
    mergeLoop_incoming _ D _
      (fun o ho => show obsKey o ∈ datesOf D from List.mem_map.mpr ⟨o, ho, rfl⟩) hD k,
    assocFind_map_self]
  unfold rightBiased
  by_cases hk : k ∈ datesOf D
  · rw [if_pos hk]
    obtain ⟨o, ho⟩ := Option.isSome_iff_exists.mp (lookupByDate_isSome_of_mem hk)
    rw [ho]
    rfl
  · rw [if_neg hk, lookupByDate_eq_none.mpr hk]
    rfl

theorem merge_data_inv (E D : List Obs) :
    ∀ e ∈ mergeLoop (datesOf D) (E ++ D) [], e.1 = obsKey e.2 :=
  mergeLoop_inv _ _ [] (by simp)

theorem merge_data_nodup (E D : List Obs) : (datesOf (merge_data E D)).Nodup := by
  have hkeys : ((mergeLoop (datesOf D) (E ++ D) []).map (·.1)).Nodup :=
    mergeLoop_keys_nodup _ _ [] (by simp)
  have hcongr : datesOf (merge_data E D) =
      (mergeLoop (datesOf D) (E ++ D) []).map (·.1) := by
    rw [merge_data, datesOf, List.map_map]
    exact List.map_congr_left (fun e he => (merge_data_inv E D e he).symm)
  rw [hcongr]
  exact hkeys

/-- The series `save_to_csv` builds in its `update_existing` path has exactly
one observation per date: filtering it at any date string gives the
right-biased lookup. -/
theorem merged_series_filter (E D : List Obs) (hE : (datesOf E).Nodup)
    (hD : (datesOf D).Nodup) (k : Str) :
    (merged_series E D).filter (fun o => obsKey o == k) = (rightBiased E D k).toList := by
  have h1 : (merge_data E D).filter (fun o => obsKey o == k) = (rightBiased E D k).toList := by
    unfold merge_data
    rw [filter_values _ (mergeLoop_keys_nodup _ _ [] (by simp)) (merge_data_inv E D) k,
      merge_assocFind E D hE hD k]
  have hperm : List.Perm (sort_merged (merge_data E D)) (merge_data E D) :=
    List.perm_insertionSort _ _
  have hnodup : (datesOf (sort_merged (merge_data E D))).Nodup :=
    ((hperm.map obsKey).nodup_iff).mpr (merge_data_nodup E D)
  have hms : merged_series E D = sort_merged (merge_data E D) :=
    dedupLoop_eq_self _ [] hnodup (by simp)
  rw [hms]
  have hfil := hperm.filter (fun o => obsKey o == k)
  rw [h1] at hfil
  cases hrb : rightBiased E D k with
  | none => rw [hrb] at hfil; simpa using hfil.eq_nil
  | some o => rw [hrb] at hfil; exact List.perm_singleton.mp hfil

/-- Membership in the merged series is exactly being the right-biased choice
at one's own date. -/
theorem mem_merged_series (E D : List Obs) (hE : (datesOf E).Nodup)
    (hD : (datesOf D).Nodup) {o : Obs} :
    o ∈ merged_series E D ↔ rightBiased E D (obsKey o) = some o := by
  constructor
  · intro h
    have hm : o ∈ (merged_series E D).filter (fun x => obsKey x == obsKey o) :=
      List.mem_filter.mpr ⟨h, by simp⟩
    rw [merged_series_filter E D hE hD (obsKey o)] at hm
    cases hrb : rightBiased E D (obsKey o) with
    | none => rw [hrb] at hm; simp at hm
    | some x => rw [hrb] at hm; simp at hm; rw [hm]
  · intro h
    have := merged_series_filter E D hE hD (obsKey o)
    rw [h] at this
    have : o ∈ (merged_series E D).filter (fun x => obsKey x == obsKey o) := by
      rw [this]; simp
    exact List.mem_of_mem_filter this

end Machinery

/-! # Bridges between string order and calendar order -/

/-- The calendar date carried by an ISO token (junk for other shapes; only
used under `isoValidB` hypotheses). -/
def obsDate (o : Obs) : CalDate :=
  match o.date with
  | .iso y m d => ⟨y, m, d⟩
  | .verbose _ m d y => ⟨y, m, d⟩
  | .isodt y m d => ⟨y, m, d⟩
  | .slash a b y => ⟨y, a, b⟩

theorem dateLtB_iff {a b : CalDate} :
    dateLtB a b = true ↔
      a.y < b.y ∨ (a.y = b.y ∧ (a.m < b.m ∨ (a.m = b.m ∧ a.d < b.d))) := by
  simp [dateLtB, Bool.or_eq_true, Bool.and_eq_true, decide_eq_true_eq, beq_iff_eq]

theorem dateLtB_trans {a b c : CalDate} (h₁ : dateLtB a b = true)
    (h₂ : dateLtB b c = true) : dateLtB a c = true := by
  rw [dateLtB_iff] at h₁ h₂ ⊢
  omega

theorem dateLtB_ne {a b : CalDate} (h : dateLtB a b = true) : a ≠ b := by
  rw [dateLtB_iff] at h
  intro hc
  subst hc
  omega

theorem strLtB_ne {a b : Str} (h : strLtB a b = true) : a ≠ b := by
  intro hc
  subst hc
  rw [strLtB_irrefl] at h
  exact Bool.false_ne_true h

instance : IsAntisymm Obs obsStrictLt :=
  ⟨fun a b h₁ h₂ => by
    unfold obsStrictLt at h₁ h₂
    rw [strLtB_asymm h₁] at h₂
    exact absurd h₂ (by simp)⟩

theorem nodup_of_pairwise_strict {l : List Obs} (h : l.Pairwise obsStrictLt) :
    l.Nodup :=
  h.imp (fun hab => fun hc => strLtB_ne hab (by rw [hc]))

theorem nodup_of_pairwise_rowLt {l : List Row} (h : l.Pairwise rowLt) :
    l.Nodup :=
  h.imp (fun hab => fun hc => strLtB_ne hab (by rw [hc]))

theorem datesOf_nodup_of_pairwise_strict {l : List Obs} (h : l.Pairwise obsStrictLt) :
    (datesOf l).Nodup := by
  unfold datesOf
  rw [List.Nodup, List.pairwise_map]
  exact h.imp (fun hab => strLtB_ne hab)

/-! # Pointwise writer/loader lemmas -/

/-- Whether the writer's final filter keeps an observation. -/
def inRangeB (o : Obs) : Bool := decide (0 < o.price ∧ o.price < 1000000)

/-- The row the writer emits for a kept observation whose date text is
already ISO. -/
def toRow (o : Obs) : Row := ⟨.tok o.date, .num (fmt2 o.price)⟩

theorem daysInMonth_le (y m : Nat) : daysInMonth y m ≤ 31 := by
  unfold daysInMonth
  split_ifs <;> omega

theorem validDateB_bounds {y m d : Nat} (h : validDateB y m d = true) :
    1 ≤ y ∧ y ≤ 9999 ∧ 1 ≤ m ∧ m ≤ 12 ∧ 1 ≤ d ∧ d ≤ 31 := by
  have hd := daysInMonth_le y m
  simp only [validDateB, Bool.and_eq_true, decide_eq_true_eq] at h
  omega

theorem isoValidB_elim {t : DateTok} (h : isoValidB t = true) :
    ∃ y m d, t = .iso y m d ∧ validDateB y m d = true := by
  cases t with
  | iso y m d => exact ⟨y, m, d, rfl, h⟩
  | verbose w m d y => simp [isoValidB] at h
  | isodt y m d => simp [isoValidB] at h
  | slash a b y => simp [isoValidB] at h

theorem parse_date_str_iso {y m d : Nat} (h : validDateB y m d = true) :
    parse_date_str (.iso y m d) = some ⟨y, m, d⟩ := by
  simp [parse_date_str, tryFmts, scraperFmts, tryFmt, h]

/-- On an ISO-valid date the writer's per-item step reduces to the price
filter. -/
theorem write_item_iso {o : Obs} (h : isoValidB o.date = true) :
    write_item o = if 0 < o.price ∧ o.price < 1000000 then some (toRow o) else none := by
  obtain ⟨y, m, d, ht, hv⟩ := isoValidB_elim h
  unfold write_item toRow
  rw [ht, parse_date_str_iso hv]

/-- Formatting with two decimals is exact on prices that already have at most
two decimals. -/
theorem fmt2_eq_self {q : ℚ} (h : (q * 100).den = 1) : fmt2 q = q := by
  have hq : (q * 100) = ((q * 100).num : ℚ) := by
    conv_lhs => rw [← Rat.num_div_den (q * 100)]
    rw [h]
    simp
  have hfloor : ⌊q * 100 + 1 / 2⌋ = (q * 100).num := by
    conv_lhs => rw [hq]
    rw [Int.floor_int_add]
    norm_num
  unfold fmt2
  rw [hfloor, ← hq]
  field_simp

theorem load_existing_csv_cons (r : Row) (rows : List Row) :
    load_existing_csv (r :: rows) = load_row r ++ load_existing_csv rows := rfl

/-- Loading a normal row whose date is ISO-shaped and whose price passes the
corruption guard returns it unchanged. -/
theorem load_row_num (y m d : Nat) (q : ℚ) (hv : validDateB y m d = true)
    (h0 : 0 < q) (h1 : q ≤ 1000000) :
    load_row ⟨.tok (.iso y m d), .num q⟩ = [⟨.iso y m d, q⟩] := by
  have hb := validDateB_bounds hv
  show (if render (DateTok.iso y m d) = ([] : Str) then ([] : List Obs)
    else if q > 1000000 ∨ q ≤ 0 then ([] : List Obs)
    else ([⟨load_normalize_date (.iso y m d), q⟩] : List Obs)) =
      ([⟨.iso y m d, q⟩] : List Obs)
  rw [if_neg (render_ne_nil _),
    if_neg (by push_neg; exact ⟨h1, h0⟩)]
  unfold load_normalize_date
  rw [if_pos (by simp only [isoShapedB, Bool.and_eq_true, decide_eq_true_eq]; omega)]

/-- Loading a row the writer produced from an ISO-valid observation with an
in-range two-decimal price returns the observation unchanged. -/
theorem load_row_written {o : Obs} (hiso : isoValidB o.date = true)
    (h2 : (o.price * 100).den = 1) (h0 : 0 < o.price) (h1 : o.price < 1000000) :
    load_row (toRow o) = [o] := by
  obtain ⟨y, m, d, ht, hv⟩ := isoValidB_elim hiso
  have hrow : toRow o = ⟨.tok (.iso y m d), .num o.price⟩ := by
    rw [toRow, ht, fmt2_eq_self h2]
  rw [hrow, load_row_num y m d o.price hv h0 (le_of_lt h1), ← ht]

/-- Writing a list of ISO-valid observations emits exactly the in-range ones,
in order. -/
theorem write_rows_iso (l : List Obs) (hiso : ∀ o ∈ l, isoValidB o.date = true) :
    write_rows l = (l.filter inRangeB).map toRow := by
  induction l with
  | nil => rfl
  | cons o rest ih =>
      unfold write_rows at ih ⊢
      rw [List.filterMap_cons, List.filter_cons]
      rw [write_item_iso (hiso o (List.mem_cons_self _ _))]
      by_cases hp : 0 < o.price ∧ o.price < 1000000
      · rw [if_pos hp, if_pos (by simpa [inRangeB] using hp), List.map_cons,
          ih (fun x hx => hiso x (List.mem_cons_of_mem _ hx))]
      · rw [if_neg hp, if_neg (by simpa [inRangeB] using hp),
          ih (fun x hx => hiso x (List.mem_cons_of_mem _ hx))]

/-- Round trip through the store: loading what the writer wrote returns
exactly the in-range observations. -/
theorem load_write_rows (l : List Obs) (hiso : ∀ o ∈ l, isoValidB o.date = true)
    (h2 : ∀ o ∈ l, (o.price * 100).den = 1) :
    load_existing_csv (write_rows l) = l.filter inRangeB := by
  rw [write_rows_iso l hiso]
  induction l with
  | nil => rfl
  | cons o rest ih =>
      rw [List.filter_cons]
      by_cases hp : inRangeB o = true
      · rw [if_pos hp, List.map_cons, load_existing_csv_cons]
        have hp' : 0 < o.price ∧ o.price < 1000000 := by
          simpa [inRangeB] using hp
        rw [load_row_written (hiso o (List.mem_cons_self _ _))
          (h2 o (List.mem_cons_self _ _)) hp'.1 hp'.2]
        rw [ih (fun x hx => hiso x (List.mem_cons_of_mem _ hx))
          (fun x hx => h2 x (List.mem_cons_of_mem _ hx))]
        rfl
      · rw [if_neg hp,
          ih (fun x hx => hiso x (List.mem_cons_of_mem _ hx))
            (fun x hx => h2 x (List.mem_cons_of_mem _ hx))]

/-! # Sortedness and lookup facts about the merged series -/

/-- String order on ISO-valid observations is calendar order. -/
theorem obsStrictLt_iff_iso {a b : Obs} (ha : isoValidB a.date = true)
    (hb : isoValidB b.date = true) :
    obsStrictLt a b ↔ dateLtB (obsDate a) (obsDate b) = true := by
  obtain ⟨y, m, d, hta, hva⟩ := isoValidB_elim ha
  obtain ⟨y', m', d', htb, hvb⟩ := isoValidB_elim hb
  have ba := validDateB_bounds hva
  have bb := validDateB_bounds hvb
  unfold obsStrictLt obsKey obsDate
  rw [hta, htb]
  rw [render_iso_lt y m d y' m' d' (by omega) (by omega) (by omega) (by omega)
    (by omega) (by omega)]

/-- On an already strictly sorted series both the sort and the final dedup
pass are identities. -/
theorem sort_dedup_eq_self {l : List Obs} (hp : l.Pairwise obsStrictLt) :
    dedup_dates (sort_merged l) = l := by
  have hs : sort_merged l = l :=
    List.Sorted.insertionSort_eq (hp.imp obsLe_of_strict)
  rw [hs]
  exact dedupLoop_eq_self l [] (datesOf_nodup_of_pairwise_strict hp) (by simp)

theorem rightBiased_key {E D : List Obs} {k : Str} {o : Obs}
    (h : rightBiased E D k = some o) : obsKey o = k := by
  unfold rightBiased at h
  cases hD : lookupByDate D k with
  | some x =>
      rw [hD] at h
      cases h
      exact (lookupByDate_eq_some hD).2
  | none =>
      rw [hD] at h
      simp only [Option.or] at h
      exact (lookupByDate_eq_some h).2

theorem rightBiased_mem {E D : List Obs} {k : Str} {o : Obs}
    (h : rightBiased E D k = some o) : o ∈ E ∨ o ∈ D := by
  unfold rightBiased at h
  cases hD : lookupByDate D k with
  | some x =>
      rw [hD] at h
      cases h
      exact Or.inr (lookupByDate_eq_some hD).1
  | none =>
      rw [hD] at h
      simp only [Option.or] at h
      exact Or.inl (lookupByDate_eq_some h).1

/-- Looking a date up in the merged series is exactly the right-biased
lookup. -/
theorem lookupByDate_merged (E D : List Obs) (hE : (datesOf E).Nodup)
    (hD : (datesOf D).Nodup) (k : Str) :
    lookupByDate (merged_series E D) k = rightBiased E D k := by
  have hMnodup : (datesOf (merged_series E D)).Nodup := dedupLoop_nodup _ _
  cases hrb : rightBiased E D k with
  | some o =>
      have hmem : o ∈ merged_series E D := (mem_merged_series E D hE hD).mpr
        (by rw [rightBiased_key hrb]; exact hrb)
      have := lookupByDate_self hMnodup hmem
      rw [rightBiased_key hrb] at this
      exact this
  | none =>
      rw [lookupByDate_eq_none]
      intro hk
      obtain ⟨o, ho, hko⟩ := List.mem_map.mp hk
      have := (mem_merged_series E D hE hD).mp ho
      rw [hko, hrb] at this
      exact Option.noConfusion this

/-- `lookupByDate` through a filter, on lists without repeated dates. -/
theorem lookupByDate_filter (l : List Obs) (p : Obs → Bool)
    (hN : (datesOf l).Nodup) (k : Str) :
    lookupByDate (l.filter p) k =
      (lookupByDate l k).bind (fun o => if p o then some o else none) := by
  induction l with
  | nil => simp [lookupByDate]
  | cons o rest ih =>
      simp only [datesOf, List.map_cons, List.nodup_cons] at hN
      rw [List.filter_cons]
      by_cases hk : obsKey o = k
      · have hrest : lookupByDate rest k = none :=
          lookupByDate_eq_none.mpr (by rw [← hk]; exact hN.1)
        have hhead : lookupByDate (o :: rest) k = some o := by
          unfold lookupByDate
          rw [List.find?_cons_of_pos _ (by simp [hk])]
        rw [hhead, Option.some_bind]
        by_cases hp : p o = true
        · rw [if_pos hp]
          unfold lookupByDate
          rw [List.find?_cons_of_pos _ (by simp [hk]), if_pos hp]
        · rw [if_neg hp, ih hN.2, hrest, Option.none_bind, if_neg hp]
      · have hhead : lookupByDate (o :: rest) k = lookupByDate rest k := by
          unfold lookupByDate
          rw [List.find?_cons_of_neg _ (by simp [hk])]
        rw [hhead, ← ih hN.2]
        by_cases hp : p o = true
        · rw [if_pos hp]
          unfold lookupByDate
          rw [List.find?_cons_of_neg _ (by simp [hk])]
        · rw [if_neg hp]

/-- For an ISO-valid observation, the writer emits a given row exactly when
the observation is in range and the row is its canonical rendering. -/
theorem write_item_eq_some_iff {o : Obs} (h : isoValidB o.date = true) {r : Row} :
    write_item o = some r ↔ inRangeB o = true ∧ r = toRow o := by
  rw [write_item_iso h]
  by_cases hp : 0 < o.price ∧ o.price < 1000000
  · rw [if_pos hp]
    simp [inRangeB, hp, eq_comm]
  · rw [if_neg hp]
    simp [inRangeB, hp]

theorem mem_write_rows {l : List Obs} {r : Row} :
    r ∈ write_rows l ↔ ∃ o ∈ l, write_item o = some r := by
  unfold write_rows
  simp [List.mem_filterMap]

theorem rowKey_toRow (o : Obs) : rowKey (toRow o) = obsKey o := rfl

/-- Write preserves the strict date-string order. -/
theorem write_rows_pairwise {l : List Obs} (hiso : ∀ o ∈ l, isoValidB o.date = true)
    (hp : l.Pairwise obsStrictLt) : (write_rows l).Pairwise rowLt := by
  unfold write_rows
  rw [List.pairwise_filterMap]
  refine hp.imp_of_mem ?_
  intro a b ha hb hab
  intro r hr r' hr'
  rw [Option.mem_def, write_item_eq_some_iff (hiso a ha)] at hr
  rw [Option.mem_def, write_item_eq_some_iff (hiso b hb)] at hr'
  unfold rowLt
  rw [hr.2, hr'.2, rowKey_toRow, rowKey_toRow]
  exact hab

/-- A strictly ascending pairwise chain gives the adjacent-ascending check. -/
theorem ascB_of_pairwise {cs : List CalDate}
    (h : cs.Pairwise (fun a b => dateLtB a b = true)) : ascB cs = true := by
  induction cs with
  | nil => rfl
  | cons a rest ih =>
      cases rest with
      | nil => rfl
      | cons b rest2 =>
          rw [List.pairwise_cons] at h
          unfold ascB
          rw [h.1 b (List.mem_cons_self _ _), ih h.2]
          rfl

/-! # Claim theorems -/

/-- Claim C1: for every existing series and every incoming series (one
observation per date each), and for every date present in either, the merged
series built by `save_to_csv` with `update_existing` contains exactly one
observation for that date — the incoming series' observation when the
incoming series has that date, otherwise the existing series' — and no date
present in either input is dropped. -/
theorem c1_merge_right_bias (existing data : List Obs)
    (hE : (datesOf existing).Nodup) (hD : (datesOf data).Nodup) :
    ∀ k : Str, k ∈ datesOf existing ∨ k ∈ datesOf data →
      ∃ o, rightBiased existing data k = some o ∧
        (merged_series existing data).filter (fun x => obsKey x == k) = [o] := by
  intro k hk
  obtain ⟨o, ho⟩ : ∃ o, rightBiased existing data k = some o := by
    unfold rightBiased
    cases hDk : lookupByDate data k with
    | some o => exact ⟨o, rfl⟩
    | none =>
        cases hEk : lookupByDate existing k with
        | some o => exact ⟨o, rfl⟩
        | none =>
            exfalso
            rcases hk with hk | hk
            · exact lookupByDate_eq_none.mp hEk hk
            · exact lookupByDate_eq_none.mp hDk hk
  refine ⟨o, ho, ?_⟩
  rw [merged_series_filter existing data hE hD k, ho]
  rfl

/-- Witness for C1 at the spec's own right-bias example: existing
`{2024-01-01: 80.00}`, incoming `{2024-01-01: 85.50}`. -/
theorem c1_merge_right_bias_witness :
    ∃ o, rightBiased [⟨.iso 2024 1 1, 80⟩] [⟨.iso 2024 1 1, 85.50⟩]
        (render (.iso 2024 1 1)) = some o ∧
      (merged_series [⟨.iso 2024 1 1, 80⟩] [⟨.iso 2024 1 1, 85.50⟩]).filter
        (fun x => obsKey x == render (.iso 2024 1 1)) = [o] :=
  c1_merge_right_bias _ _ (by decide) (by decide) _ (Or.inl (by decide))

/-- Claim C5 counterexample: `save_to_csv` sorts by the raw date string
before normalising the date texts, so a slash-format token that normalises
to a later date than an ISO token can end up written first — the output
rows' dates are not ascending. -/
theorem c5_counterexample :
    rows_dates (save_rows_overwrite
        [⟨.slash 6 30 2025, 85⟩, ⟨.iso 2025 1 15, 86⟩]) =
      [⟨2025, 6, 30⟩, ⟨2025, 1, 15⟩] ∧
    ascB (rows_dates (save_rows_overwrite
        [⟨.slash 6 30 2025, 85⟩, ⟨.iso 2025 1 15, 86⟩])) = false :=
  ⟨rfl, rfl⟩

/-- Claim C5 (amended): when every observation handed to `save_to_csv`
already carries an ISO date text (the shape produced by the program's own
extractor and loader), the written rows have strictly ascending dates and no
date appears twice.  For mixed-format inputs the guarantee fails (see the
counterexample). -/
theorem c5_output_ascending (data : List Obs)
    (hiso : ∀ o ∈ data, isoValidB o.date = true) :
    ascB (rows_dates (save_rows_overwrite data)) = true ∧
      (rows_dates (save_rows_overwrite data)).Nodup := by
  have hMstrict : (dedup_dates (sort_merged data)).Pairwise obsStrictLt :=
    dedup_sort_strict data
  have hMmem : ∀ o ∈ dedup_dates (sort_merged data), o ∈ data := by
    intro o ho
    exact (List.perm_insertionSort obsLe data).subset
      ((dedupLoop_sublist (sort_merged data) []).subset ho)
  have hMiso : ∀ o ∈ dedup_dates (sort_merged data), isoValidB o.date = true :=
    fun o ho => hiso o (hMmem o ho)
  have hrw : rows_dates (save_rows_overwrite data) =
      (dedup_dates (sort_merged data)).filterMap (fun o => (write_item o).bind (fun r =>
        match r.date with
        | .tok (.iso y m d) => some ⟨y, m, d⟩
        | _ => none)) := by
    unfold save_rows_overwrite write_rows rows_dates
    rw [List.filterMap_filterMap]
  rw [hrw]
  have hpair : ((dedup_dates (sort_merged data)).filterMap (fun o => (write_item o).bind (fun r =>
      match r.date with
      | .tok (.iso y m d) => some ⟨y, m, d⟩
      | _ => none))).Pairwise (fun a b => dateLtB a b = true) := by
    rw [List.pairwise_filterMap]
    refine hMstrict.imp_of_mem ?_
    intro a b ha hb hab c hc c' hc'
    rw [Option.mem_def, Option.bind_eq_some] at hc hc'
    obtain ⟨r, hr, hrc⟩ := hc
    obtain ⟨r', hr', hrc'⟩ := hc'
    rw [write_item_eq_some_iff (hMiso a ha)] at hr
    rw [write_item_eq_some_iff (hMiso b hb)] at hr'
    obtain ⟨ya, ma, da, hta, hva⟩ := isoValidB_elim (hMiso a ha)
    obtain ⟨yb, mb, db, htb, hvb⟩ := isoValidB_elim (hMiso b hb)
    have hca : c = obsDate a := by
      rw [hr.2] at hrc
      unfold toRow at hrc
      rw [hta] at hrc
      simp only [Option.some.injEq] at hrc
      rw [← hrc]
      unfold obsDate
      rw [hta]
    have hcb : c' = obsDate b := by
      rw [hr'.2] at hrc'
      unfold toRow at hrc'
      rw [htb] at hrc'
      simp only [Option.some.injEq] at hrc'
      rw [← hrc']
      unfold obsDate
      rw [htb]
    rw [hca, hcb]
    exact (obsStrictLt_iff_iso (hMiso a ha) (hMiso b hb)).mp hab
  exact ⟨ascB_of_pairwise hpair, hpair.imp (fun h => dateLtB_ne h)⟩

/-- Witness for C5 (amended) on an all-ISO input given out of date order. -/
theorem c5_output_ascending_witness :
    ascB (rows_dates (save_rows_overwrite
        [⟨.iso 2025 6 30, 85⟩, ⟨.iso 2025 1 15, 86⟩])) = true ∧
      (rows_dates (save_rows_overwrite
        [⟨.iso 2025 6 30, 85⟩, ⟨.iso 2025 1 15, 86⟩])).Nodup :=
  c5_output_ascending _ (by decide)

/-- Claim C3 counterexample: the series `[(2024-01-01, 1000000.00)]`
satisfies the claim's validity conditions (ascending unique ISO dates,
`0 < price ≤ 1,000,000`, two decimals), but the writer's strict
`price < 1000000` filter drops the row, so loading the saved store returns
the empty series, not the original. -/
theorem c3_counterexample :
    (0 < (1000000 : ℚ) ∧ (1000000 : ℚ) ≤ 1000000 ∧
      ((1000000 : ℚ) * 100).den = 1) ∧
    load_existing_csv (save_rows_overwrite [⟨.iso 2024 1 1, 1000000⟩]) = [] ∧
    ([] : List Obs) ≠ [⟨.iso 2024 1 1, 1000000⟩] := by
  refine ⟨⟨by norm_num, le_refl _, ?_⟩, rfl, by simp⟩
  norm_num

/-- Claim C3 (amended): for every canonical series with strictly ascending
unique ISO dates and prices satisfying `0 < price < 1,000,000` (strictly
below the boundary the writer drops) with at most two decimal places,
loading the store produced by saving the series returns it exactly — same
observations, same order, no dropped rows, no value changes. -/
theorem c3_round_trip (S : List Obs)
    (hiso : ∀ o ∈ S, isoValidB o.date = true)
    (hasc : S.Pairwise (fun a b => dateLtB (obsDate a) (obsDate b) = true))
    (hpr : ∀ o ∈ S, 0 < o.price ∧ o.price < 1000000 ∧ (o.price * 100).den = 1) :
    load_existing_csv (save_rows_overwrite S) = S := by
  have hstrict : S.Pairwise obsStrictLt :=
    List.Pairwise.imp_of_mem
      (fun ha hb h => (obsStrictLt_iff_iso (hiso _ ha) (hiso _ hb)).mpr h) hasc
  unfold save_rows_overwrite
  rw [sort_dedup_eq_self hstrict,
    load_write_rows S hiso (fun o ho => (hpr o ho).2.2)]
  exact List.filter_eq_self.mpr (fun o ho => by
    simp only [inRangeB, decide_eq_true_eq]
    exact ⟨(hpr o ho).1, (hpr o ho).2.1⟩)

/-- Witness for C3 (amended) on a two-element canonical series. -/
theorem c3_round_trip_witness :
    load_existing_csv (save_rows_overwrite
        [⟨.iso 2024 1 1, 85.50⟩, ⟨.iso 2024 7 1, 86⟩]) =
      [⟨.iso 2024 1 1, 85.50⟩, ⟨.iso 2024 7 1, 86⟩] :=
  c3_round_trip _ (by decide) (by decide)
    (by
      intro o ho
      rcases List.mem_cons.mp ho with rfl | ho
      · refine ⟨by norm_num, by norm_num, by norm_num⟩
      · rcases List.mem_cons.mp ho with rfl | ho
        · refine ⟨by norm_num, by norm_num, by norm_num⟩
        · simp at ho)

/-- Claim C4 counterexample: the serialized-list repair path checks no price
range — an inner `['Mon Jun 30 00:00:00 2025', 8322696]` pair yields an
observation with price 8322696 in `load_existing_csv`, and likewise in the
chart loader, even though 8322696 exceeds the corruption bound. -/
theorem c4_counterexample :
    load_row ⟨.listLit [(.verbose 0 6 30 2025, 8322696)], .empty⟩ =
      [⟨.iso 2025 6 30, 8322696⟩] ∧
    vis_load_row ⟨.listLit [(.verbose 0 6 30 2025, 8322696)], .empty⟩ =
      [(⟨2025, 6, 30⟩, 8322696)] ∧
    (8322696 : ℚ) > 1000000 :=
  ⟨rfl, rfl, by norm_num⟩

/-- Claim C4 (amended): the price token 8322696 is rejected when it arrives
as the located price value of a raw candidate in the extractor, or as the
price field of a normal persisted row in either loader; the serialized-list
repair path of both loaders applies no such guard (see the counterexample). -/
theorem c4_reject_normal_paths :
    (∀ item : Cand, ∀ dv : Option DP,
      locateDP item = (dv, some (.num 8322696)) → parse_data_item item = none) ∧
    (∀ t : DateTok, load_row ⟨.tok t, .num 8322696⟩ = []) ∧
    (∀ t : DateTok, vis_load_row ⟨.tok t, .num 8322696⟩ = []) := by
  refine ⟨?_, ?_, ?_⟩
  · intro item dv hloc
    unfold parse_data_item
    rw [hloc]
    cases dv with
    | none => rfl
    | some d =>
        show (if truthyDP d = true ∧ truthyDP (DP.num 8322696) = true then
            match normalize_date_value d with
            | none => none
            | some c =>
                match normalize_price (DP.num 8322696) with
                | none => none
                | some q => some (⟨.iso c.y c.m c.d, q⟩ : Obs)
          else none) = none
        by_cases ht : truthyDP d = true ∧ truthyDP (DP.num 8322696) = true
        · rw [if_pos ht]
          have hnp : normalize_price (.num 8322696) = none := by
            show (if (8322696 : ℚ) ≤ 0 ∨ (8322696 : ℚ) > 1000000 then none
              else some ((8322696 : ℚ))) = none
            rw [if_pos (Or.inr (by norm_num))]
          rw [hnp]
          cases hnd : normalize_date_value d with
          | none => rfl
          | some c => rfl
        · rw [if_neg ht]
  · intro t
    show (if render t = ([] : Str) then ([] : List Obs)
      else if (8322696 : ℚ) > 1000000 ∨ (8322696 : ℚ) ≤ 0 then ([] : List Obs)
      else [⟨load_normalize_date t, 8322696⟩]) = []
    rw [if_neg (render_ne_nil t), if_pos (Or.inl (by norm_num))]
  · intro t
    show (if render t = ([] : Str) ∧ PriceField.num (8322696 : ℚ) = PriceField.empty then
        ([] : List (CalDate × ℚ))
      else if (8322696 : ℚ) > 1000000 then ([] : List (CalDate × ℚ))
      else match vis_parse_date_price t (some 8322696) with
        | some o => [o]
        | none => []) = []
    rw [if_neg (by simp), if_pos (by norm_num)]

/-- Witness for C4 (amended): all three rejection paths at a concrete
candidate and row. -/
theorem c4_reject_normal_paths_witness :
    parse_data_item (.arr [.str (.iso 2024 1 1), .num 8322696]) = none ∧
    load_row ⟨.tok (.iso 2024 1 1), .num 8322696⟩ = [] ∧
    vis_load_row ⟨.tok (.iso 2024 1 1), .num 8322696⟩ = [] :=
  ⟨c4_reject_normal_paths.1 _ (some (.str (.iso 2024 1 1))) rfl,
    c4_reject_normal_paths.2.1 _,
    c4_reject_normal_paths.2.2 _⟩

/-- Claim C6 counterexample: an observation with price exactly 1,000,000
satisfies the spec's invariant `0 < price ≤ 1,000,000`, but the writer's
filter is the strict `price > 0 and price < 1000000`, so no row is
emitted. -/
theorem c6_counterexample :
    (0 < (1000000 : ℚ) ∧ (1000000 : ℚ) ≤ 1000000) ∧
    write_item ⟨.iso 2024 1 1, 1000000⟩ = none :=
  ⟨⟨by norm_num, le_refl _⟩, rfl⟩

/-- Claim C6 (amended): for every observation whose date text the writer can
parse, a row is emitted if and only if the price satisfies
`0 < price < 1,000,000` — strict at the upper bound, unlike the loaders'
guard, so a price of exactly 1,000,000 is dropped. -/
theorem c6_write_filter (o : Obs) (h : (parse_date_str o.date).isSome = true) :
    (write_item o).isSome = true ↔ 0 < o.price ∧ o.price < 1000000 := by
  obtain ⟨c, hc⟩ := Option.isSome_iff_exists.mp h
  unfold write_item
  rw [hc]
  show (if 0 < o.price ∧ o.price < 1000000 then
      some (⟨.tok (.iso c.y c.m c.d), .num (fmt2 o.price)⟩ : Row)
    else none).isSome = true ↔ 0 < o.price ∧ o.price < 1000000
  by_cases hp : 0 < o.price ∧ o.price < 1000000
  · rw [if_pos hp]
    simpa using hp
  · rw [if_neg hp]
    simpa using hp

/-- Witness for C6 (amended) at a written observation. -/
theorem c6_write_filter_witness :
    (write_item ⟨.iso 2024 1 1, 85⟩).isSome = true ↔
      0 < (⟨.iso 2024 1 1, (85 : ℚ)⟩ : Obs).price ∧
        (⟨.iso 2024 1 1, (85 : ℚ)⟩ : Obs).price < 1000000 :=
  c6_write_filter _ (by rfl)

/-- Claim C7: a persisted row whose date field is the serialized list
`[['Mon Jun 30 00:00:00 2025', 85.5], ['Tue Jul 01 00:00:00 2025', 86.0]]`
with an empty price field expands into exactly the observations
`(2025-06-30, 85.50)` and `(2025-07-01, 86.00)`, each inner pair normalised
independently. -/
theorem c7_list_literal_repair :
    load_row ⟨.listLit [(.verbose 0 6 30 2025, 85.50), (.verbose 1 7 1 2025, 86.00)],
        .empty⟩ =
      [⟨.iso 2025 6 30, 85.50⟩, ⟨.iso 2025 7 1, 86.00⟩] := rfl

theorem normalize_date_value_num (q : ℚ) :
    normalize_date_value (.num q) =
      pyFromtimestampDate (if q > 10 ^ 10 then q / 1000 else q) := rfl

theorem pyFromtimestampDate_def (t : ℚ) :
    pyFromtimestampDate t =
      if -719162 ≤ ⌊t / 86400⌋ ∧ ⌊t / 86400⌋ ≤ 2932896 then
        some (civilFromDays ⌊t / 86400⌋)
      else none := rfl

/-- Claim C9: the extractor's date normaliser treats numeric tokens above
`1e10` as milliseconds and divides by 1000 before conversion; in
particular the tokens 1719792000000 and 1719792000 both normalise to the
calendar date 2024-07-01 (timestamp-to-date conversion modelled at UTC). -/
theorem c9_timestamp_disambiguation :
    (∀ q : ℚ, q > 10 ^ 10 →
      normalize_date_value (.num q) = pyFromtimestampDate (q / 1000)) ∧
    normalize_date_value (.num 1719792000000) = some ⟨2024, 7, 1⟩ ∧
    normalize_date_value (.num 1719792000) = some ⟨2024, 7, 1⟩ := by
  have hday : ⌊(1719792000 : ℚ) / 86400⌋ = (19905 : ℤ) := by norm_num
  have hcivil : civilFromDays 19905 = (⟨2024, 7, 1⟩ : CalDate) := by decide
  refine ⟨?_, ?_, ?_⟩
  · intro q hq
    rw [normalize_date_value_num, if_pos hq]
  · rw [normalize_date_value_num, if_pos (by norm_num),
      show (1719792000000 : ℚ) / 1000 = 1719792000 by norm_num,
      pyFromtimestampDate_def, hday, if_pos (by decide), hcivil]
  · rw [normalize_date_value_num, if_neg (by norm_num),
      pyFromtimestampDate_def, hday, if_pos (by decide), hcivil]

/-- Witness for C9's universally quantified conjunct at a concrete
millisecond token. -/
theorem c9_timestamp_disambiguation_witness :
    normalize_date_value (.num 1719792000000) =
      pyFromtimestampDate ((1719792000000 : ℚ) / 1000) :=
  c9_timestamp_disambiguation.1 1719792000000 (by norm_num)

/-- Claim C10: `save_to_csv` raises `ValueError("No data to save")` whenever
called with an empty data list, or with no data argument while the scraper
holds no scraped points; the guard fires before the store file is opened, so
the persisted store is unchanged. -/
theorem c10_empty_raises (dataArg : Option (List Obs)) (points : List Obs)
    (store : Option (List Row)) (upd : Bool)
    (h : dataArg = some [] ∨ (dataArg = none ∧ points = [])) :
    save_to_csv dataArg points store upd = .error "No data to save" ∧
      store_after_save dataArg points store upd = store := by
  rcases h with rfl | ⟨rfl, rfl⟩ <;> exact ⟨rfl, rfl⟩

/-- Witness for C10 with an explicit data list and a nonempty store. -/
theorem c10_empty_raises_witness :
    save_to_csv (some []) [⟨.iso 2024 1 1, 85⟩]
        (some [⟨.tok (.iso 2024 1 1), .num 85⟩]) true = .error "No data to save" ∧
      store_after_save (some []) [⟨.iso 2024 1 1, 85⟩]
        (some [⟨.tok (.iso 2024 1 1), .num 85⟩]) true =
          some [⟨.tok (.iso 2024 1 1), .num 85⟩] :=
  c10_empty_raises _ _ _ _ (Or.inl rfl)

/-! # Claim C8: the no-data run -/

/-- The observation a canonical persisted row loads to. -/
def rowObs (r : Row) : Obs :=
  match r with
  | ⟨.tok t, .num q⟩ => ⟨t, q⟩
  | ⟨.tok t, .empty⟩ => ⟨t, 0⟩
  | ⟨.listLit _, _⟩ => ⟨.iso 0 0 0, 0⟩

/-- A row in the exact shape the writer produces: a valid ISO date and an
in-range two-decimal price. -/
def rowCanonical (r : Row) : Prop :=
  ∃ y m d q, r = ⟨.tok (.iso y m d), .num q⟩ ∧ validDateB y m d = true ∧
    0 < q ∧ q < 1000000 ∧ (q * 100).den = 1

theorem load_row_canonical {r : Row} (h : rowCanonical r) : load_row r = [rowObs r] := by
  obtain ⟨y, m, d, q, rfl, hv, h0, h1, -⟩ := h
  rw [load_row_num y m d q hv h0 (le_of_lt h1)]
  rfl

theorem load_canonical (rows : List Row) (h : ∀ r ∈ rows, rowCanonical r) :
    load_existing_csv rows = rows.map rowObs := by
  induction rows with
  | nil => rfl
  | cons r rest ih =>
      rw [load_existing_csv_cons, load_row_canonical (h r (List.mem_cons_self _ _)),
        ih (fun x hx => h x (List.mem_cons_of_mem _ hx)), List.map_cons]
      rfl

theorem toRow_rowObs {r : Row} (h : rowCanonical r) : toRow (rowObs r) = r := by
  obtain ⟨y, m, d, q, rfl, hv, h0, h1, h2⟩ := h
  show (⟨.tok (.iso y m d), .num (fmt2 q)⟩ : Row) = ⟨.tok (.iso y m d), .num q⟩
  rw [fmt2_eq_self h2]

theorem obsKey_rowObs {r : Row} (h : rowCanonical r) : obsKey (rowObs r) = rowKey r := by
  obtain ⟨y, m, d, q, rfl, -, -, -, -⟩ := h
  rfl

/-- Claim C8 counterexample: `scrape_eua2.main` cleans the store up before
scraping, so a run in which the fetch layer yields nothing still rewrites a
non-canonical store (here one whose second row holds the market-id price
8322696): the final content differs from the initial content. -/
theorem c8_counterexample :
    (run_main (some [⟨.tok (.iso 2024 1 1), .num 85⟩,
        ⟨.tok (.iso 2024 1 2), .num 8322696⟩]) []).1 ≠
      some [⟨.tok (.iso 2024 1 1), .num 85⟩,
        ⟨.tok (.iso 2024 1 2), .num 8322696⟩] ∧
    (run_main (some [⟨.tok (.iso 2024 1 1), .num 85⟩,
        ⟨.tok (.iso 2024 1 2), .num 8322696⟩]) []).2 = 0 := by
  constructor
  · intro h
    have h1 : ((run_main (some [⟨.tok (.iso 2024 1 1), .num 85⟩,
        ⟨.tok (.iso 2024 1 2), .num 8322696⟩]) []).1.map List.length) = some 1 := rfl
    rw [h] at h1
    simp at h1
  · rfl

/-- Claim C8 (amended): a run in which the fetch layer yields zero usable
observations reports zero new records and leaves the store at the cleaned
form of its starting content; when the store is already canonical (strictly
ascending writer-shaped rows) the content is unchanged.  A non-canonical
store is rewritten by the cleanup pass even in a zero-data run (see the
counterexample). -/
theorem c8_no_data_run (rows : List Row) (hc : ∀ r ∈ rows, rowCanonical r)
    (hasc : rows.Pairwise rowLt) :
    run_main (some rows) [] = (some rows, 0) := by
  show (cleanup_csv (some rows), 0) = (some rows, 0)
  suffices h : cleanup_csv (some rows) = some rows by rw [h]
  show (if load_existing_csv rows = [] then some rows
    else some (save_rows_overwrite (load_existing_csv rows))) = some rows
  by_cases hnil : load_existing_csv rows = []
  · rw [if_pos hnil]
  · rw [if_neg hnil, load_canonical rows hc]
    have hstrict : (rows.map rowObs).Pairwise obsStrictLt := by
      rw [List.pairwise_map]
      refine hasc.imp_of_mem ?_
      intro a b ha hb hab
      unfold obsStrictLt
      rw [obsKey_rowObs (hc a ha), obsKey_rowObs (hc b hb)]
      exact hab
    have hiso : ∀ o ∈ rows.map rowObs, isoValidB o.date = true := by
      intro o ho
      obtain ⟨r, hr, rfl⟩ := List.mem_map.mp ho
      obtain ⟨y, m, d, q, rfl, hv, -, -, -⟩ := hc r hr
      simpa [rowObs, isoValidB] using hv
    unfold save_rows_overwrite
    rw [sort_dedup_eq_self hstrict, write_rows_iso _ hiso,
      List.filter_eq_self.mpr ?_, List.map_map]
    · congr 1
      refine List.map_congr_left ?_ |>.trans (List.map_id rows)
      intro r hr
      exact toRow_rowObs (hc r hr)
    · intro o ho
      obtain ⟨r, hr, rfl⟩ := List.mem_map.mp ho
      obtain ⟨y, m, d, q, rfl, -, h0, h1, -⟩ := hc r hr
      simp only [rowObs, inRangeB, decide_eq_true_eq]
      exact ⟨h0, h1⟩

/-- Witness for C8 (amended) on a canonical two-row store. -/
theorem c8_no_data_run_witness :
    run_main (some [⟨.tok (.iso 2024 1 1), .num 85⟩,
        ⟨.tok (.iso 2024 1 2), .num 86⟩]) [] =
      (some [⟨.tok (.iso 2024 1 1), .num 85⟩, ⟨.tok (.iso 2024 1 2), .num 86⟩], 0) :=
  c8_no_data_run _
    (by
      intro r hr
      rcases List.mem_cons.mp hr with rfl | hr
      · exact ⟨2024, 1, 1, 85, rfl, by decide, by norm_num, by norm_num, by norm_num⟩
      · rcases List.mem_cons.mp hr with rfl | hr
        · exact ⟨2024, 1, 2, 86, rfl, by decide, by norm_num, by norm_num, by norm_num⟩
        · simp at hr)
    (by decide)

/-- Claim C2: merging a canonical series with itself yields it unchanged,
and re-merging the same incoming batch into the already-merged persisted
result writes a store identical to the one written by merging once. -/
theorem c2_merge_idempotent (S existing data : List Obs)
    (hSiso : ∀ o ∈ S, isoValidB o.date = true)
    (hSasc : S.Pairwise (fun a b => dateLtB (obsDate a) (obsDate b) = true))
    (hEiso : ∀ o ∈ existing, isoValidB o.date = true)
    (hEnodup : (datesOf existing).Nodup)
    (hE2 : ∀ o ∈ existing, (o.price * 100).den = 1)
    (hDiso : ∀ o ∈ data, isoValidB o.date = true)
    (hDnodup : (datesOf data).Nodup)
    (hD2 : ∀ o ∈ data, (o.price * 100).den = 1) :
    merged_series S S = S ∧
    save_rows_update (load_existing_csv (save_rows_update existing data)) data =
      save_rows_update existing data := by
  constructor
  · -- merging a series with itself is the identity
    have hSstrict : S.Pairwise obsStrictLt :=
      List.Pairwise.imp_of_mem
        (fun ha hb h => (obsStrictLt_iff_iso (hSiso _ ha) (hSiso _ hb)).mpr h) hSasc
    have hSN : (datesOf S).Nodup := datesOf_nodup_of_pairwise_strict hSstrict
    have hself : ∀ k, rightBiased S S k = lookupByDate S k := by
      intro k
      unfold rightBiased
      cases lookupByDate S k <;> rfl
    refine List.eq_of_perm_of_sorted (r := obsStrictLt) ?_ (dedup_sort_strict _) hSstrict
    rw [List.perm_ext_iff_of_nodup
      (show (merged_series S S).Nodup from nodup_of_pairwise_strict (dedup_sort_strict _))
      (nodup_of_pairwise_strict hSstrict)]
    intro o
    rw [mem_merged_series S S hSN hSN, hself]
    exact ⟨fun h => (lookupByDate_eq_some h).1, fun h => lookupByDate_self hSN h⟩
  · -- re-merging the persisted result is the identity on the written rows
    set M := merged_series existing data with hMdef
    have hMnodup : (datesOf M).Nodup := dedupLoop_nodup _ _
    have hMstrict : M.Pairwise obsStrictLt := dedup_sort_strict _
    have hMmem : ∀ o ∈ M, o ∈ existing ∨ o ∈ data := fun o ho =>
      rightBiased_mem ((mem_merged_series _ _ hEnodup hDnodup).mp ho)
    have hMiso : ∀ o ∈ M, isoValidB o.date = true := fun o ho =>
      (hMmem o ho).elim (hEiso o) (hDiso o)
    have hM2 : ∀ o ∈ M, (o.price * 100).den = 1 := fun o ho =>
      (hMmem o ho).elim (hE2 o) (hD2 o)
    have hload : load_existing_csv (save_rows_update existing data) = M.filter inRangeB :=
      load_write_rows M hMiso hM2
    rw [hload]
    have hM'nodup : (datesOf (M.filter inRangeB)).Nodup :=
      List.Nodup.sublist (List.Sublist.map obsKey (List.filter_sublist M)) hMnodup
    have hM'iso : ∀ o ∈ M.filter inRangeB, isoValidB o.date = true :=
      fun o ho => hMiso o (List.mem_of_mem_filter ho)
    have hlookupM : ∀ k, lookupByDate M k = rightBiased existing data k :=
      lookupByDate_merged _ _ hEnodup hDnodup
    have hR2iso : ∀ o ∈ merged_series (M.filter inRangeB) data, isoValidB o.date = true := by
      intro o ho
      rcases rightBiased_mem ((mem_merged_series _ _ hM'nodup hDnodup).mp ho) with h | h
      exacts [hM'iso o h, hDiso o h]
    have hmemiff : ∀ r, r ∈ save_rows_update (M.filter inRangeB) data ↔
        r ∈ save_rows_update existing data := by
      intro r
      show r ∈ write_rows (merged_series (M.filter inRangeB) data) ↔ r ∈ write_rows M
      rw [mem_write_rows, mem_write_rows]
      constructor
      · rintro ⟨o, ho, hw⟩
        have hoiso : isoValidB o.date = true := hR2iso o ho
        rw [write_item_eq_some_iff hoiso] at hw
        refine ⟨o, ?_, (write_item_eq_some_iff hoiso).mpr hw⟩
        have hrb := (mem_merged_series _ _ hM'nodup hDnodup).mp ho
        unfold rightBiased at hrb
        rw [mem_merged_series _ _ hEnodup hDnodup]
        unfold rightBiased
        cases hDk : lookupByDate data (obsKey o) with
        | some x =>
            rw [hDk] at hrb
            exact hrb
        | none =>
            rw [hDk] at hrb
            rw [lookupByDate_filter M inRangeB hMnodup] at hrb
            cases hMk : lookupByDate M (obsKey o) with
            | none =>
                rw [hMk] at hrb
                exact absurd hrb (by simp)
            | some x =>
                rw [hMk, Option.some_bind] at hrb
                by_cases hx : inRangeB x = true
                · rw [if_pos hx] at hrb
                  have hxo : x = o := Option.some.inj hrb
                  have hMR := hlookupM (obsKey o)
                  rw [hMk] at hMR
                  unfold rightBiased at hMR
                  rw [hDk] at hMR
                  rw [← hMR, hxo]
                · rw [if_neg hx] at hrb
                  exact absurd hrb (by simp)
      · rintro ⟨o, ho, hw⟩
        have hoiso := hMiso o ho
        rw [write_item_eq_some_iff hoiso] at hw
        refine ⟨o, ?_, (write_item_eq_some_iff hoiso).mpr hw⟩
        rw [mem_merged_series _ _ hM'nodup hDnodup]
        have hrbE : rightBiased existing data (obsKey o) = some o :=
          (mem_merged_series _ _ hEnodup hDnodup).mp ho
        unfold rightBiased at hrbE ⊢
        cases hDk : lookupByDate data (obsKey o) with
        | some x =>
            rw [hDk] at hrbE
            exact hrbE
        | none =>
            rw [hDk] at hrbE
            rw [lookupByDate_filter M inRangeB hMnodup]
            have hMo : lookupByDate M (obsKey o) = some o := by
              rw [hlookupM]
              unfold rightBiased
              rw [hDk]
              exact hrbE
            rw [hMo, Option.some_bind, if_pos hw.1]
            rfl
    have hs1 : (write_rows (merged_series (M.filter inRangeB) data)).Pairwise rowLt :=
      write_rows_pairwise hR2iso (dedup_sort_strict _)
    have hs2 : (write_rows M).Pairwise rowLt := write_rows_pairwise hMiso hMstrict
    exact List.eq_of_perm_of_sorted
      ((List.perm_ext_iff_of_nodup (nodup_of_pairwise_rowLt hs1)
        (nodup_of_pairwise_rowLt hs2)).mpr hmemiff)
      hs1 hs2

/-- Witness for C2 on concrete canonical inputs. -/
theorem c2_merge_idempotent_witness :
    merged_series [⟨.iso 2024 1 1, 80⟩] [⟨.iso 2024 1 1, 80⟩] = [⟨.iso 2024 1 1, 80⟩] ∧
    save_rows_update
        (load_existing_csv (save_rows_update [⟨.iso 2024 1 1, 80⟩]
          [⟨.iso 2024 1 1, 85.50⟩])) [⟨.iso 2024 1 1, 85.50⟩] =
      save_rows_update [⟨.iso 2024 1 1, 80⟩] [⟨.iso 2024 1 1, 85.50⟩] :=
  c2_merge_idempotent [⟨.iso 2024 1 1, 80⟩] [⟨.iso 2024 1 1, 80⟩] [⟨.iso 2024 1 1, 85.50⟩]
    (by decide) (by decide) (by decide) (by decide)
    (by
      intro o ho
      rcases List.mem_cons.mp ho with rfl | ho
      · norm_num
      · simp at ho)
    (by decide) (by decide)
    (by
      intro o ho
      rcases List.mem_cons.mp ho with rfl | ho
      · norm_num
      · simp at ho)

end EUA2
